import Mathlib

/-!
Verification of the parser front end and REPL dispatch of a small
interpreter (the "chimpanzee" Monkey-language interpreter).

The parser driver (`src/src/parser/mod.rs`) and the interactive shell
(`src/src/bin/repl.rs`) are embedded from their source.  The expression
parser (`Expression::parse`, living in the repository's `ast.rs`, which is
not among the provided files) and the lexer's token type are modelled from
the specification's description of the precedence-climbing algorithm
(spec §4.1) and of the token vocabulary.

All recursive parsing functions take an explicit fuel argument; fuel
exhaustion returns `none`.  A later theorem shows that a fuel linear in
the input length never exhausts, which is the termination statement for
`parse_program`.
-/

/-- Modelled from the spec: the lexer's token vocabulary (spec §2, §4.1).
`ident` and `int` carry payloads, mirroring `Token::Ident(String)` and
`Token::Int(i64)` used in `src/src/parser/mod.rs`. -/
inductive Token where
  | illegal (s : String)
  | eof
  | ident (s : String)
  | int (n : Int)
  | stringT (s : String)
  | assign
  | plus
  | minus
  | bang
  | asterisk
  | slash
  | lt
  | gt
  | lte
  | gte
  | eq
  | notEq
  | andT
  | orT
  | comma
  | semicolon
  | colon
  | lparen
  | rparen
  | lbrace
  | rbrace
  | lbracket
  | rbracket
  | letT
  | functionT
  | trueT
  | falseT
  | ifT
  | elseT
  | returnT
deriving DecidableEq

/-- Modelled from the spec: the display form of a token, as interpolated
into parser diagnostics ("expected next token to be X, got Y instead") and
used by `name.token.to_string()` in `parse_let_statement`
(src/src/parser/mod.rs:139).  Each token displays as its source text;
payload-carrying tokens display their payload. -/
def Token.display : Token → String
  | .illegal s => s
  | .eof => "Eof"
  | .ident s => s
  | .int n => toString n
  | .stringT s => s
  | .assign => "="
  | .plus => "+"
  | .minus => "-"
  | .bang => "!"
  | .asterisk => "*"
  | .slash => "/"
  | .lt => "<"
  | .gt => ">"
  | .lte => "<="
  | .gte => ">="
  | .eq => "=="
  | .notEq => "!="
  | .andT => "&&"
  | .orT => "||"
  | .comma => ","
  | .semicolon => ";"
  | .colon => ":"
  | .lparen => "("
  | .rparen => ")"
  | .lbrace => "\x7b"
  | .rbrace => "\x7d"
  | .lbracket => "["
  | .rbracket => "]"
  | .letT => "let"
  | .functionT => "fn"
  | .trueT => "true"
  | .falseT => "false"
  | .ifT => "if"
  | .elseT => "else"
  | .returnT => "return"

/-- Modelled from the spec: the precedence table of §4.1, low to high:
lowest < logical < equality < relational < additive < multiplicative <
prefix < call/index (call and index equal and highest).  Encoded as
natural numbers so that the Pratt loop's strict comparison is `<` on Nat.
This is `Precedence::from(&Token)`. -/
def precedence_of : Token → Nat
  | .andT | .orT => 1
  | .eq | .notEq => 2
  | .lt | .gt | .lte | .gte => 3
  | .plus | .minus => 4
  | .asterisk | .slash => 5
  | .lparen => 7
  | .lbracket => 7
  | _ => 0

/-- Modelled from the spec: the precedence at which a prefix operator's
operand is parsed (level "prefix" of the §4.1 table). -/
def prefixPrecedence : Nat := 6

/-- Modelled from the spec: the lowest precedence, the level at which
statements parse their expressions. -/
def lowestPrecedence : Nat := 0

/-- The `Identifier` AST node of the parser: a token and its string value
(struct `Identifier` used at src/src/parser/mod.rs:116-120). -/
structure Identifier where
  token : Token
  value : String
deriving DecidableEq

/-- Primitive literal expressions (`Primitive::IntegerLiteral`,
`BooleanLiteral`, `StringLiteral`, as in the parser's tests). -/
inductive Primitive where
  | integerLiteral (n : Int)
  | booleanLiteral (b : Bool)
  | stringLiteral (s : String)
deriving DecidableEq

mutual
/-- The `Expression` AST variants of spec §3.  `prefixExpr`/`infixExpr`
store the operator token, as the source's `Prefix`/`Infix` nodes do. -/
inductive Expression where
  | identifier (i : Identifier)
  | primitive (p : Primitive)
  | prefixExpr (token : Token) (right : Expression)
  | infixExpr (token : Token) (left : Expression) (right : Expression)
  | conditional (condition : Expression) (consequence : BlockStatement)
      (alternative : Option BlockStatement)
  | functionLiteral (parameters : List Identifier) (body : BlockStatement)
      (name : Option String)
  | functionCall (function : Expression) (arguments : List Expression)
  | arrayLiteral (elements : List Expression)
  | indexExpression (left : Expression) (index : Expression)
  | hashMapLiteral (pairs : List (Expression × Expression))

/-- The `Statement` variants of spec §3: `Let{name, value}`,
`Return{value}` and expression statements.  The source's `LetStatement`
and `ReturnStatement` structs are inlined as constructor fields. -/
inductive Statement where
  | letStmt (name : Identifier) (value : Expression)
  | returnStmt (returnValue : Expression)
  | exprStmt (e : Expression)

/-- A block: an ordered sequence of statements (spec §3). -/
inductive BlockStatement where
  | mk (statements : List Statement)
end

/-- A `Program` is the ordered sequence of top-level statements
(src/src/parser/mod.rs:88-91). -/
structure Program where
  statements : List Statement

/-- The parser state (struct `Parser`, src/src/parser/mod.rs:60-66): the
remaining lexer output, the accumulated error list (`ParserErrors` is a
plain ordered `Vec<String>`), and the current/peek lookahead tokens.
The lexer collaborator is modelled as the list of tokens it has yet to
produce; once exhausted it yields `Token.eof` forever (spec §6). -/
structure Parser where
  lexer : List Token
  errors : List String
  current_token : Token
  peek_token : Token
deriving DecidableEq

/-- Modelled from the spec: the lexer's single "produce next token"
operation (spec §6); an exhausted lexer produces `Eof`. -/
def lexer_next : List Token → Token × List Token
  | [] => (Token.eof, [])
  | t :: ts => (t, ts)

/-- `Parser::next_token` (src/src/parser/mod.rs:83-86): shift the peek
token into current and pull one token from the lexer. -/
def Parser.next_token (p : Parser) : Parser :=
  { lexer := (lexer_next p.lexer).2
    errors := p.errors
    current_token := p.peek_token
    peek_token := (lexer_next p.lexer).1 }

/-- `Parser::new` (src/src/parser/mod.rs:69-81): start from two `Illegal`
placeholders and advance twice so current/peek hold the first two
tokens. -/
def Parser.new (ts : List Token) : Parser :=
  (Parser.next_token (Parser.next_token
    { lexer := ts
      errors := []
      current_token := Token.illegal ""
      peek_token := Token.illegal "" }))

/-- `Parser::current_token_is` (src/src/parser/mod.rs:182-188): when the
current token is an `Ident` or `Int`, compare by kind only; otherwise
compare by full equality. -/
def Parser.current_token_is (p : Parser) (token : Token) : Bool :=
  match p.current_token with
  | Token.ident _ => match token with | Token.ident _ => true | _ => false
  | Token.int _ => match token with | Token.int _ => true | _ => false
  | _ => p.current_token == token

/-- `Parser::peek_token_is` (src/src/parser/mod.rs:190-196). -/
def Parser.peek_token_is (p : Parser) (token : Token) : Bool :=
  match p.peek_token with
  | Token.ident _ => match token with | Token.ident _ => true | _ => false
  | Token.int _ => match token with | Token.int _ => true | _ => false
  | _ => p.peek_token == token

/-- `Parser::peek_error` (src/src/parser/mod.rs:208-213): append the
"Expected next token to be X, got Y instead" diagnostic. -/
def Parser.peek_error (p : Parser) (token : Token) : Parser :=
  { p with errors := p.errors ++
      ["Expected next token to be " ++ token.display ++ ", got "
        ++ p.peek_token.display ++ " instead"] }

/-- `Parser::expect_peek` (src/src/parser/mod.rs:198-206): on a kind
match advance and report true; otherwise record a `peek_error` and report
false. -/
def Parser.expect_peek (p : Parser) (token : Token) : Bool × Parser :=
  if p.peek_token_is token then (true, p.next_token) else (false, p.peek_error token)

/-- `Parser::push_error` (src/src/parser/mod.rs:223-227): append a
message to the error list only when it is non-empty. -/
def Parser.push_error (p : Parser) (message : String) : Parser :=
  if message.isEmpty then p else { p with errors := p.errors ++ [message] }

/-- `Parser::peek_precedence` (src/src/parser/mod.rs:215-217). -/
def Parser.peek_precedence (p : Parser) : Nat := precedence_of p.peek_token

/-- `Parser::current_precedence` (src/src/parser/mod.rs:219-221). -/
def Parser.current_precedence (p : Parser) : Nat := precedence_of p.current_token

mutual
/-- Modelled from the spec: `parse_expression(min_precedence)` of §4.1 —
look up a prefix rule for the current token, then fold infix rules while
the lookahead binds tighter.  This is `Expression::parse` of the
repository's `ast.rs` (not among the provided files); an `Err` whose
message is empty marks a failure whose diagnostic was already recorded by
`expect_peek` (see `Parser.push_error`). -/
def Expression.parse : Nat → Nat → Parser → Option ((Except String Expression) × Parser)
  | 0, _, _ => none
  | fuel + 1, prec, p =>
    match parse_prefix_rule fuel p with
    | none => none
    | some (Except.error e, p₁) => some (Except.error e, p₁)
    | some (Except.ok left, p₁) => parse_infix_loop fuel prec left p₁

/-- Modelled from the spec: the per-token prefix rules of §4.1
(identifier, integer/boolean/string literal, `!`/`-` prefix, `(`
grouping, `if`, `fn`, `[` array literal, `{` hash-map literal); a token
with no prefix rule yields the "no prefix parse function for <token>
found" diagnostic. -/
def parse_prefix_rule : Nat → Parser → Option ((Except String Expression) × Parser)
  | 0, _ => none
  | fuel + 1, p =>
    match p.current_token with
    | Token.ident v =>
      some (Except.ok (Expression.identifier { token := Token.ident v, value := v }), p)
    | Token.int n => some (Except.ok (Expression.primitive (Primitive.integerLiteral n)), p)
    | Token.trueT => some (Except.ok (Expression.primitive (Primitive.booleanLiteral true)), p)
    | Token.falseT => some (Except.ok (Expression.primitive (Primitive.booleanLiteral false)), p)
    | Token.stringT s => some (Except.ok (Expression.primitive (Primitive.stringLiteral s)), p)
    | Token.bang =>
      match Expression.parse fuel prefixPrecedence p.next_token with
      | none => none
      | some (Except.error e, p₁) => some (Except.error e, p₁)
      | some (Except.ok right, p₁) =>
        some (Except.ok (Expression.prefixExpr Token.bang right), p₁)
    | Token.minus =>
      match Expression.parse fuel prefixPrecedence p.next_token with
      | none => none
      | some (Except.error e, p₁) => some (Except.error e, p₁)
      | some (Except.ok right, p₁) =>
        some (Except.ok (Expression.prefixExpr Token.minus right), p₁)
    | Token.lparen =>
      match Expression.parse fuel lowestPrecedence p.next_token with
      | none => none
      | some (Except.error e, p₁) => some (Except.error e, p₁)
      | some (Except.ok inner, p₁) =>
        match p₁.expect_peek Token.rparen with
        | (true, p₂) => some (Except.ok inner, p₂)
        | (false, p₂) => some (Except.error "", p₂)
    | Token.ifT => parse_conditional fuel p
    | Token.functionT => parse_function_literal fuel p
    | Token.lbracket =>
      match parse_expression_list fuel Token.rbracket p with
      | none => none
      | some (Except.error e, p₁) => some (Except.error e, p₁)
      | some (Except.ok es, p₁) => some (Except.ok (Expression.arrayLiteral es), p₁)
    | Token.lbrace => parse_hash_literal fuel p
    | t => some (Except.error ("no prefix parse function for " ++ t.display ++ " found"), p)

/-- Modelled from the spec: the Pratt loop of §4.1 — while the lookahead
is not a statement terminator and its precedence is strictly greater than
`min_precedence`, fold the left expression into a binary, call or index
node. -/
def parse_infix_loop : Nat → Nat → Expression → Parser → Option ((Except String Expression) × Parser)
  | 0, _, _, _ => none
  | fuel + 1, prec, left, p =>
    if p.peek_token_is Token.semicolon then some (Except.ok left, p)
    else if prec < p.peek_precedence then
      match p.peek_token with
      | Token.plus | Token.minus | Token.slash | Token.asterisk
      | Token.eq | Token.notEq | Token.lt | Token.gt | Token.lte | Token.gte
      | Token.andT | Token.orT =>
        let p₁ := p.next_token
        let opTok := p₁.current_token
        let opPrec := p₁.current_precedence
        match Expression.parse fuel opPrec p₁.next_token with
        | none => none
        | some (Except.error e, p₃) => some (Except.error e, p₃)
        | some (Except.ok right, p₃) =>
          parse_infix_loop fuel prec (Expression.infixExpr opTok left right) p₃
      | Token.lparen =>
        match parse_expression_list fuel Token.rparen p.next_token with
        | none => none
        | some (Except.error e, p₂) => some (Except.error e, p₂)
        | some (Except.ok args, p₂) =>
          parse_infix_loop fuel prec (Expression.functionCall left args) p₂
      | Token.lbracket =>
        match Expression.parse fuel lowestPrecedence p.next_token.next_token with
        | none => none
        | some (Except.error e, p₂) => some (Except.error e, p₂)
        | some (Except.ok idx, p₂) =>
          match p₂.expect_peek Token.rbracket with
          | (true, p₃) =>
            parse_infix_loop fuel prec (Expression.indexExpression left idx) p₃
          | (false, p₃) => some (Except.error "", p₃)
      | _ => some (Except.ok left, p)
    else some (Except.ok left, p)

/-- Modelled from the spec: comma-separated expression lists for array
literals and call arguments (§4.1), terminated by `endT`. -/
def parse_expression_list : Nat → Token → Parser → Option ((Except String (List Expression)) × Parser)
  | 0, _, _ => none
  | fuel + 1, endT, p =>
    if p.peek_token_is endT then some (Except.ok [], p.next_token)
    else
      match Expression.parse fuel lowestPrecedence p.next_token with
      | none => none
      | some (Except.error e, p₂) => some (Except.error e, p₂)
      | some (Except.ok e₀, p₂) => parse_expression_list_rest fuel endT [e₀] p₂

/-- Modelled from the spec: the tail of an expression list — further
comma-led elements, then the required end token. -/
def parse_expression_list_rest : Nat → Token → List Expression → Parser → Option ((Except String (List Expression)) × Parser)
  | 0, _, _, _ => none
  | fuel + 1, endT, acc, p =>
    if p.peek_token_is Token.comma then
      match Expression.parse fuel lowestPrecedence p.next_token.next_token with
      | none => none
      | some (Except.error e, p₂) => some (Except.error e, p₂)
      | some (Except.ok e₀, p₂) => parse_expression_list_rest fuel endT (acc ++ [e₀]) p₂
    else
      match p.expect_peek endT with
      | (true, p₁) => some (Except.ok acc, p₁)
      | (false, p₁) => some (Except.error "", p₁)

/-- Modelled from the spec: `if` `(` condition `)` `{` consequence `}`
optionally followed by `else` `{` alternative `}`; braces are mandatory
and missing ones are parse errors (§4.1). -/
def parse_conditional : Nat → Parser → Option ((Except String Expression) × Parser)
  | 0, _ => none
  | fuel + 1, p =>
    match p.expect_peek Token.lparen with
    | (false, p₁) => some (Except.error "", p₁)
    | (true, p₁) =>
      match Expression.parse fuel lowestPrecedence p₁.next_token with
      | none => none
      | some (Except.error e, p₃) => some (Except.error e, p₃)
      | some (Except.ok cond, p₃) =>
        match p₃.expect_peek Token.rparen with
        | (false, p₄) => some (Except.error "", p₄)
        | (true, p₄) =>
          match p₄.expect_peek Token.lbrace with
          | (false, p₅) => some (Except.error "", p₅)
          | (true, p₅) =>
            match parse_block_statement fuel p₅ with
            | none => none
            | some (cons, p₆) =>
              if p₆.peek_token_is Token.elseT then
                match p₆.next_token.expect_peek Token.lbrace with
                | (false, p₈) => some (Except.error "", p₈)
                | (true, p₈) =>
                  match parse_block_statement fuel p₈ with
                  | none => none
                  | some (alt, p₉) =>
                    some (Except.ok (Expression.conditional cond cons (some alt)), p₉)
              else some (Except.ok (Expression.conditional cond cons none), p₆)

/-- Modelled from the spec: `fn` `(` comma-separated identifier list `)`
`{` body `}` (§4.1).  The literal's `name` is `None` at parse time
(spec §3); only `parse_let_statement` later back-patches it. -/
def parse_function_literal : Nat → Parser → Option ((Except String Expression) × Parser)
  | 0, _ => none
  | fuel + 1, p =>
    match p.expect_peek Token.lparen with
    | (false, p₁) => some (Except.error "", p₁)
    | (true, p₁) =>
      match parse_function_parameters fuel p₁ with
      | none => none
      | some (Except.error e, p₂) => some (Except.error e, p₂)
      | some (Except.ok params, p₂) =>
        match p₂.expect_peek Token.lbrace with
        | (false, p₃) => some (Except.error "", p₃)
        | (true, p₃) =>
          match parse_block_statement fuel p₃ with
          | none => none
          | some (body, p₄) =>
            some (Except.ok (Expression.functionLiteral params body none), p₄)

/-- Modelled from the spec: the comma-separated identifier list of a
function literal's parameters (§4.1). -/
def parse_function_parameters : Nat → Parser → Option ((Except String (List Identifier)) × Parser)
  | 0, _ => none
  | fuel + 1, p =>
    if p.peek_token_is Token.rparen then some (Except.ok [], p.next_token)
    else
      match p.expect_peek (Token.ident "") with
      | (false, p₁) => some (Except.error "", p₁)
      | (true, p₁) =>
        let id₀ : Identifier :=
          match p₁.current_token with
          | Token.ident v => { token := Token.ident v, value := v }
          | t => { token := t, value := "" }
        parse_function_parameters_rest fuel [id₀] p₁

/-- Modelled from the spec: the tail of a parameter list — further
comma-led identifiers, then the required `)`. -/
def parse_function_parameters_rest : Nat → List Identifier → Parser → Option ((Except String (List Identifier)) × Parser)
  | 0, _, _ => none
  | fuel + 1, acc, p =>
    if p.peek_token_is Token.comma then
      match p.next_token.expect_peek (Token.ident "") with
      | (false, p₂) => some (Except.error "", p₂)
      | (true, p₂) =>
        let id₀ : Identifier :=
          match p₂.current_token with
          | Token.ident v => { token := Token.ident v, value := v }
          | t => { token := t, value := "" }
        parse_function_parameters_rest fuel (acc ++ [id₀]) p₂
    else
      match p.expect_peek Token.rparen with
      | (true, p₁) => some (Except.ok acc, p₁)
      | (false, p₁) => some (Except.error "", p₁)

/-- Modelled from the spec: `{` comma-separated `key : value` pairs `}`;
pairs retain source order in the AST (§4.1). -/
def parse_hash_literal : Nat → Parser → Option ((Except String Expression) × Parser)
  | 0, _ => none
  | fuel + 1, p => parse_hash_pairs fuel [] p

/-- Modelled from the spec: the pair-collecting loop of a hash-map
literal — while the lookahead is not `}`, parse `key : value`, demanding
a comma between pairs and a final `}`. -/
def parse_hash_pairs : Nat → List (Expression × Expression) → Parser → Option ((Except String Expression) × Parser)
  | 0, _, _ => none
  | fuel + 1, acc, p =>
    if p.peek_token_is Token.rbrace then
      some (Except.ok (Expression.hashMapLiteral acc), p.next_token)
    else
      match Expression.parse fuel lowestPrecedence p.next_token with
      | none => none
      | some (Except.error e, p₂) => some (Except.error e, p₂)
      | some (Except.ok k, p₂) =>
        match p₂.expect_peek Token.colon with
        | (false, p₃) => some (Except.error "", p₃)
        | (true, p₃) =>
          match Expression.parse fuel lowestPrecedence p₃.next_token with
          | none => none
          | some (Except.error e, p₅) => some (Except.error e, p₅)
          | some (Except.ok v, p₅) =>
            if p₅.peek_token_is Token.rbrace then
              parse_hash_pairs fuel (acc ++ [(k, v)]) p₅
            else
              match p₅.expect_peek Token.comma with
              | (true, p₆) => parse_hash_pairs fuel (acc ++ [(k, v)]) p₆
              | (false, p₆) => some (Except.error "", p₆)

/-- Modelled from the spec: a brace-delimited block — statements until
the closing `}` (or end of input), each step advancing past the parsed
statement (§4.1 conditional/function bodies). -/
def parse_block_statement : Nat → Parser → Option (BlockStatement × Parser)
  | 0, _ => none
  | fuel + 1, p => parse_block_rest fuel [] p.next_token

/-- Modelled from the spec: the statement-collecting loop of a block. -/
def parse_block_rest : Nat → List Statement → Parser → Option (BlockStatement × Parser)
  | 0, _, _ => none
  | fuel + 1, acc, p =>
    if p.current_token_is Token.rbrace then some (BlockStatement.mk acc, p)
    else if p.current_token_is Token.eof then some (BlockStatement.mk acc, p)
    else
      match Parser.parse_statement fuel p with
      | none => none
      | some (st, p₁) =>
        let acc₁ := match st with | some s => acc ++ [s] | none => acc
        parse_block_rest fuel acc₁ p₁.next_token

/-- `Parser::parse_statement` (src/src/parser/mod.rs:103-109): dispatch
on the current token to `let`, `return`, or an expression statement. -/
def Parser.parse_statement : Nat → Parser → Option (Option Statement × Parser)
  | 0, _ => none
  | fuel + 1, p =>
    match p.current_token with
    | Token.letT =>
      match Parser.parse_let_statement fuel p with
      | none => none
      | some (r, p₁) => some (r.map (fun nv => Statement.letStmt nv.1 nv.2), p₁)
    | Token.returnT =>
      match Parser.parse_return_statement fuel p with
      | none => none
      | some (r, p₁) => some (r.map Statement.returnStmt, p₁)
    | _ =>
      match Parser.parse_expression_statement fuel p with
      | none => none
      | some (r, p₁) => some (r.map Statement.exprStmt, p₁)

/-- `Parser::parse_let_statement` (src/src/parser/mod.rs:111-147):
expect an identifier, expect `=`, parse the value at lowest precedence,
back-patch a function-literal value's name with the bound identifier's
token text, and consume an optional trailing semicolon.  The `_` branch
of the name match is the source's `unreachable!()`. -/
def Parser.parse_let_statement : Nat → Parser → Option (Option (Identifier × Expression) × Parser)
  | 0, _ => none
  | fuel + 1, p =>
    match p.expect_peek (Token.ident "") with
    | (false, p₁) => some (none, p₁)
    | (true, p₁) =>
      let name : Identifier :=
        match p₁.current_token with
        | Token.ident v => { token := Token.ident v, value := v }
        | t => { token := t, value := "" }
      match p₁.expect_peek Token.assign with
      | (false, p₂) => some (none, p₂)
      | (true, p₂) =>
        match Expression.parse fuel lowestPrecedence p₂.next_token with
        | none => none
        | some (Except.error s, p₄) => some (none, p₄.push_error s)
        | some (Except.ok value, p₄) =>
          let value₁ :=
            match value with
            | Expression.functionLiteral ps body _ =>
              Expression.functionLiteral ps body (some name.token.display)
            | v => v
          let p₅ := if p₄.peek_token_is Token.semicolon then p₄.next_token else p₄
          some (some (name, value₁), p₅)

/-- `Parser::parse_return_statement` (src/src/parser/mod.rs:149-165):
advance past `return`, parse the value, consume an optional trailing
semicolon. -/
def Parser.parse_return_statement : Nat → Parser → Option (Option Expression × Parser)
  | 0, _ => none
  | fuel + 1, p =>
    match Expression.parse fuel lowestPrecedence p.next_token with
    | none => none
    | some (Except.error s, p₂) => some (none, p₂.push_error s)
    | some (Except.ok rv, p₂) =>
      let p₃ := if p₂.peek_token_is Token.semicolon then p₂.next_token else p₂
      some (some rv, p₃)

/-- `Parser::parse_expression_statement` (src/src/parser/mod.rs:167-180):
parse an expression at lowest precedence, consume an optional semicolon,
then either yield the expression or `push_error` its message. -/
def Parser.parse_expression_statement : Nat → Parser → Option (Option Expression × Parser)
  | 0, _ => none
  | fuel + 1, p =>
    match Expression.parse fuel lowestPrecedence p with
    | none => none
    | some (r, p₁) =>
      let p₂ := if p₁.peek_token_is Token.semicolon then p₁.next_token else p₁
      match r with
      | Except.ok e => some (some e, p₂)
      | Except.error s => some (none, p₂.push_error s)

/-- `Parser::parse_program`'s loop (src/src/parser/mod.rs:88-101): while
the current token is not `Eof`, parse a statement, append it when one was
produced, and advance. -/
def Parser.parse_program_loop : Nat → Parser → List Statement → Option (List Statement × Parser)
  | 0, _, _ => none
  | fuel + 1, p, acc =>
    if p.current_token = Token.eof then some (acc, p)
    else
      match Parser.parse_statement fuel p with
      | none => none
      | some (st, p₁) =>
        let acc₁ := match st with | some s => acc ++ [s] | none => acc
        Parser.parse_program_loop fuel p₁.next_token acc₁
end

/-- `Parser::parse_program` (src/src/parser/mod.rs:88-101): run the
statement loop from an empty program; the final parser state carries the
accumulated error list. -/
def Parser.parse_program (fuel : Nat) (p : Parser) : Option (Program × Parser) :=
  match Parser.parse_program_loop fuel p [] with
  | none => none
  | some (sts, p₁) => some ({ statements := sts }, p₁)

/-- Fuel that is always sufficient for a token stream (shown by
`parser_fuel_spec` below): linear in the stream length. -/
def fuelFor (ts : List Token) : Nat := 16 * (ts.length + 2) + 16

/-- The public entry point `parse` (src/src/parser/mod.rs:230-234): build
a parser over the lexer's token stream, run `parse_program`, and return
the `Program` — and only the `Program`; the `Parser` value holding the
error list is dropped. -/
def parse (ts : List Token) : Program :=
  match Parser.parse_program (fuelFor ts) (Parser.new ts) with
  | some (prog, _) => prog
  | none => { statements := [] }

/-- The ordered error list accumulated by a full `parse_program` run over
the same stream, read from the `Parser`'s public `errors` field (as the
REPL does at src/src/bin/repl.rs:42); `parse` itself discards it. -/
def parse_errors (ts : List Token) : List String :=
  match Parser.parse_program (fuelFor ts) (Parser.new ts) with
  | some (_, p₁) => p₁.errors
  | none => []

/-- What one REPL line produces: the rendered parse-error messages and
whether evaluation (`eval_program`) was invoked. -/
structure ReplLineOutcome where
  rendered_errors : List String
  eval_invoked : Bool
deriving DecidableEq

/-- One line of the interactive shell (`repl()`, src/src/bin/repl.rs:36-53):
lex and parse the line; when the parser's error list is non-empty, print
every error message (src/src/bin/repl.rs:42-44 with `print_parse_errors`,
lines 55-76).  Evaluation is then invoked UNCONDITIONALLY: the call
`eval_program(program)` at src/src/bin/repl.rs:46 is not guarded by any
`else`, so `eval_invoked` is `true` on every path.  (`eval_program`
itself is outside the parser; only the fact that the shell calls it is
modelled here.) -/
def repl_line (ts : List Token) : ReplLineOutcome :=
  match Parser.parse_program (fuelFor ts) (Parser.new ts) with
  | some (_, p₁) =>
    { rendered_errors := if p₁.errors.length ≠ 0 then p₁.errors else []
      eval_invoked := true }
  | none => { rendered_errors := [], eval_invoked := true }

/-- Modelled from the spec: the lexer's token stream for the source line
`let x 5;`. -/
def tokensLetX5 : List Token :=
  [Token.letT, Token.ident "x", Token.int 5, Token.semicolon]

/-- Modelled from the spec: the lexer's token stream for
`let x 5; let = 10; let 838383;` (the spec's error-accumulation test). -/
def tokensThreeBadLets : List Token :=
  [Token.letT, Token.ident "x", Token.int 5, Token.semicolon,
   Token.letT, Token.assign, Token.int 10, Token.semicolon,
   Token.letT, Token.int 838383, Token.semicolon]

/-- Modelled from the spec: the lexer's token stream for `let x = 5;`. -/
def tokensLetEq5 : List Token :=
  [Token.letT, Token.ident "x", Token.assign, Token.int 5, Token.semicolon]

/-- Modelled from the spec: the lexer's token stream for `return true;`. -/
def tokensReturnTrue : List Token :=
  [Token.returnT, Token.trueT, Token.semicolon]

/-- Modelled from the spec: the lexer's token stream for
`let myFunction = fn(){};`. -/
def tokensLetMyFunction : List Token :=
  [Token.letT, Token.ident "myFunction", Token.assign, Token.functionT,
   Token.lparen, Token.rparen, Token.lbrace, Token.rbrace, Token.semicolon]

/-- Modelled from the spec: the lexer's token stream for `fn(){};`. -/
def tokensBareFn : List Token :=
  [Token.functionT, Token.lparen, Token.rparen, Token.lbrace, Token.rbrace,
   Token.semicolon]

/-- Modelled from the spec: the lexer's token stream for `5;`. -/
def tokensFive : List Token := [Token.int 5, Token.semicolon]

/-- Modelled from the spec: the lexer's token stream for the unterminated
grouping `(5` — its parse fails with an empty `Err` message after
`expect_peek` has already recorded the missing-`)` diagnostic. -/
def tokensGroupOpen : List Token := [Token.lparen, Token.int 5]

/-- Modelled from the spec: the lexer's token stream for `let x = 1 + 2;`
(a let statement whose value is a compound infix expression). -/
def tokensLetSum : List Token :=
  [Token.letT, Token.ident "x", Token.assign, Token.int 1, Token.plus, Token.int 2,
   Token.semicolon]

/-- Modelled from the spec: the lexer's token stream for `return true`
with no trailing semicolon. -/
def tokensReturnTrueBare : List Token := [Token.returnT, Token.trueT]

/-- Parser state at the start of the malformed statement `let = 10;`. -/
def stateLetAssign : Parser :=
  Parser.new [Token.letT, Token.assign, Token.int 10, Token.semicolon]

/-- Parser state at the start of the malformed statement `let x 5;`. -/
def stateLetX5 : Parser := Parser.new tokensLetX5

/-- The token-position part of a parser state: everything except the
error list. -/
def tokState (p : Parser) : List Token × Token × Token :=
  (p.lexer, p.current_token, p.peek_token)

/-- Weight of a token for the progress measure: `Eof` weighs nothing. -/
def tokWeight (t : Token) : Nat := if t = Token.eof then 0 else 1

/-- Progress measure of a parser state: tokens still to be moved past.
`next_token` never increases it and strictly decreases it while the
current token is not `Eof`. -/
def Parser.measure (p : Parser) : Nat :=
  p.lexer.length + tokWeight p.current_token + tokWeight p.peek_token

/-- Well-formed lexer stream: `Eof` marks the end of input only — it
never appears among the pending tokens, and once it has reached the
lookahead the stream is exhausted. -/
def WFStream (p : Parser) : Prop :=
  Token.eof ∉ p.lexer ∧ (p.peek_token = Token.eof → p.lexer = []) ∧
    (p.current_token = Token.eof → p.peek_token = Token.eof)

/-- What any parsing step does to the state: the measure never grows,
and (over a well-formed stream) the step either leaves the token
position unchanged or consumes at least one token; well-formedness is
preserved. -/
def Steps (p p' : Parser) : Prop :=
  p'.measure ≤ p.measure ∧
    (WFStream p → (tokState p' = tokState p ∨ p'.measure < p.measure) ∧ WFStream p')

mutual
/-- Name discipline of parsed expressions (spec §3): every
`FunctionLiteral` in the tree has `name = None` — except that a `let`
statement's direct right-hand side carries the bound identifier's name
(see `StmtOk.letFn`). -/
inductive ExprOk : Expression → Prop
  | identifier (i : Identifier) : ExprOk (.identifier i)
  | primitive (pr : Primitive) : ExprOk (.primitive pr)
  | prefixE (t : Token) (r : Expression) : ExprOk r → ExprOk (.prefixExpr t r)
  | infixE (t : Token) (l r : Expression) : ExprOk l → ExprOk r → ExprOk (.infixExpr t l r)
  | conditionalNone (c : Expression) (cons : BlockStatement) :
      ExprOk c → BlockOk cons → ExprOk (.conditional c cons none)
  | conditionalSome (c : Expression) (cons alt : BlockStatement) :
      ExprOk c → BlockOk cons → BlockOk alt → ExprOk (.conditional c cons (some alt))
  | functionLiteral (ps : List Identifier) (b : BlockStatement) :
      BlockOk b → ExprOk (.functionLiteral ps b none)
  | functionCall (f : Expression) (args : List Expression) :
      ExprOk f → (∀ a ∈ args, ExprOk a) → ExprOk (.functionCall f args)
  | arrayLiteral (es : List Expression) :
      (∀ e ∈ es, ExprOk e) → ExprOk (.arrayLiteral es)
  | indexExpression (l i : Expression) :
      ExprOk l → ExprOk i → ExprOk (.indexExpression l i)
  | hashMapLiteral (ps : List (Expression × Expression)) :
      (∀ kv ∈ ps, ExprOk kv.1) → (∀ kv ∈ ps, ExprOk kv.2) →
      ExprOk (.hashMapLiteral ps)

/-- Name discipline of parsed statements: a `let` whose value is a
function literal carries the bound identifier's name (back-patched by
`parse_let_statement`); every other parsed expression obeys `ExprOk`. -/
inductive StmtOk : Statement → Prop
  | letPlain (n : Identifier) (v : Expression) :
      ExprOk v → (∀ ps b nm, v ≠ .functionLiteral ps b nm) → StmtOk (.letStmt n v)
  | letFn (n : Identifier) (ps : List Identifier) (b : BlockStatement) :
      BlockOk b → StmtOk (.letStmt n (.functionLiteral ps b (some n.value)))
  | ret (e : Expression) : ExprOk e → StmtOk (.returnStmt e)
  | expr (e : Expression) : ExprOk e → StmtOk (.exprStmt e)

/-- Name discipline of a parsed block: all its statements obey
`StmtOk`. -/
inductive BlockOk : BlockStatement → Prop
  | mk (ss : List Statement) : (∀ s ∈ ss, StmtOk s) → BlockOk (.mk ss)
end

/-- Lift a result predicate over `Except`: an error result is always
acceptable. -/
def ExceptResOk {α : Type} (P : α → Prop) : Except String α → Prop
  | Except.ok a => P a
  | Except.error _ => True

/-- Lift a result predicate over `Option`: a missing result is always
acceptable. -/
def OptResOk {α : Type} (P : α → Prop) : Option α → Prop
  | some a => P a
  | none => True

/-- The specification of one fueled parsing function: every successful
run is a `Steps` transition whose result satisfies `Ok`, and over a
well-formed stream a fuel of `16 * measure + rank` never exhausts. -/
abbrev FnSpec {α : Type} (Ok : α → Prop) (rank fuel : Nat)
    (run : Nat → Parser → Option (α × Parser)) : Prop :=
  ∀ p : Parser,
    (∀ a p', run fuel p = some (a, p') → Steps p p' ∧ Ok a) ∧
    (WFStream p → 16 * p.measure + rank ≤ fuel → (run fuel p).isSome)

/-- The simultaneous specification of all fueled parsing functions at a
given fuel. -/
abbrev MasterAt (fuel : Nat) : Prop :=
  (∀ prec, FnSpec (ExceptResOk ExprOk) 6 fuel (fun f p => Expression.parse f prec p)) ∧
  FnSpec (ExceptResOk ExprOk) 5 fuel parse_prefix_rule ∧
  (∀ prec left, FnSpec (fun r => ExprOk left → ExceptResOk ExprOk r) 1 fuel
    (fun f p => parse_infix_loop f prec left p)) ∧
  (∀ endT, FnSpec (ExceptResOk (fun es => ∀ e ∈ es, ExprOk e)) 3 fuel
    (fun f p => parse_expression_list f endT p)) ∧
  (∀ endT acc, FnSpec (fun r => (∀ e ∈ acc, ExprOk e) →
      ExceptResOk (fun es => ∀ e ∈ es, ExprOk e) r) 1 fuel
    (fun f p => parse_expression_list_rest f endT acc p)) ∧
  FnSpec (ExceptResOk ExprOk) 1 fuel parse_conditional ∧
  FnSpec (ExceptResOk ExprOk) 1 fuel parse_function_literal ∧
  FnSpec (fun _ => True) 1 fuel parse_function_parameters ∧
  (∀ acc, FnSpec (fun _ => True) 1 fuel
    (fun f p => parse_function_parameters_rest f acc p)) ∧
  FnSpec (ExceptResOk ExprOk) 4 fuel parse_hash_literal ∧
  (∀ acc, FnSpec (fun r => (∀ kv ∈ acc, ExprOk kv.1 ∧ ExprOk kv.2) →
      ExceptResOk ExprOk r) 3 fuel
    (fun f p => parse_hash_pairs f acc p)) ∧
  FnSpec BlockOk 2 fuel parse_block_statement ∧
  (∀ acc, FnSpec (fun b => (∀ s ∈ acc, StmtOk s) → BlockOk b) 9 fuel
    (fun f p => parse_block_rest f acc p)) ∧
  FnSpec (OptResOk StmtOk) 8 fuel Parser.parse_statement ∧
  FnSpec (OptResOk (fun nv => StmtOk (Statement.letStmt nv.1 nv.2))) 7 fuel
    Parser.parse_let_statement ∧
  FnSpec (OptResOk ExprOk) 7 fuel Parser.parse_return_statement ∧
  FnSpec (OptResOk ExprOk) 7 fuel Parser.parse_expression_statement ∧
  (∀ acc, FnSpec (fun sts => (∀ s ∈ acc, StmtOk s) → ∀ s ∈ sts, StmtOk s) 9 fuel
    (fun f p => Parser.parse_program_loop f p acc))

theorem tokWeight_le_one (t : Token) : tokWeight t ≤ 1 := by
  unfold tokWeight; split <;> omega

theorem tokWeight_eof : tokWeight Token.eof = 0 := rfl

theorem tokWeight_of_ne {t : Token} (h : t ≠ Token.eof) : tokWeight t = 1 := by
  unfold tokWeight; simp [h]

theorem measure_congr {p p' : Parser} (h : tokState p' = tokState p) :
    p'.measure = p.measure := by
  unfold tokState at h
  have h₁ : p'.lexer = p.lexer := congrArg (fun x => x.1) h
  have h₂ : p'.current_token = p.current_token := congrArg (fun x => x.2.1) h
  have h₃ : p'.peek_token = p.peek_token := congrArg (fun x => x.2.2) h
  unfold Parser.measure
  rw [h₁, h₂, h₃]

theorem wfstream_congr {p p' : Parser} (h : tokState p' = tokState p) :
    WFStream p' ↔ WFStream p := by
  unfold tokState at h
  have h₁ : p'.lexer = p.lexer := congrArg (fun x => x.1) h
  have h₂ : p'.current_token = p.current_token := congrArg (fun x => x.2.1) h
  have h₃ : p'.peek_token = p.peek_token := congrArg (fun x => x.2.2) h
  unfold WFStream
  rw [h₁, h₂, h₃]

theorem steps_refl (p : Parser) : Steps p p :=
  ⟨le_refl _, fun wf => ⟨Or.inl rfl, wf⟩⟩

theorem steps_of_tokState {p p' : Parser} (h : tokState p' = tokState p) :
    Steps p p' :=
  ⟨le_of_eq (measure_congr h), fun wf => ⟨Or.inl h, (wfstream_congr h).mpr wf⟩⟩

theorem steps_trans {p q r : Parser} (h₁ : Steps p q) (h₂ : Steps q r) :
    Steps p r := by
  refine ⟨le_trans h₂.1 h₁.1, fun wf => ?_⟩
  obtain ⟨d₁, wq⟩ := h₁.2 wf
  obtain ⟨d₂, wr⟩ := h₂.2 wq
  refine ⟨?_, wr⟩
  rcases d₁ with e₁ | l₁
  · rcases d₂ with e₂ | l₂
    · exact Or.inl (e₂.trans e₁)
    · exact Or.inr (lt_of_lt_of_le l₂ (le_of_eq (measure_congr e₁)))
  · exact Or.inr (lt_of_le_of_lt h₂.1 l₁)

theorem measure_next_le (p : Parser) : (p.next_token).measure ≤ p.measure := by
  obtain ⟨l, e, c, pk⟩ := p
  cases l with
  | nil =>
    simp only [Parser.measure, Parser.next_token, lexer_next, List.length_nil, tokWeight_eof]
    have := tokWeight_le_one c
    omega
  | cons t ts =>
    simp only [Parser.measure, Parser.next_token, lexer_next, List.length_cons]
    have h₁ := tokWeight_le_one t
    have h₂ := tokWeight_le_one c
    omega

theorem measure_next_lt {p : Parser} (h : p.current_token ≠ Token.eof) :
    (p.next_token).measure < p.measure := by
  obtain ⟨l, e, c, pk⟩ := p
  simp only at h
  cases l with
  | nil =>
    simp only [Parser.measure, Parser.next_token, lexer_next, List.length_nil, tokWeight_eof,
      tokWeight_of_ne h]
    omega
  | cons t ts =>
    simp only [Parser.measure, Parser.next_token, lexer_next, List.length_cons,
      tokWeight_of_ne h]
    have h₁ := tokWeight_le_one t
    omega

theorem next_token_of_eof {p : Parser} (wf : WFStream p)
    (h : p.current_token = Token.eof) : p.next_token = p := by
  have hpk : p.peek_token = Token.eof := wf.2.2 h
  have hl : p.lexer = [] := wf.2.1 hpk
  obtain ⟨l, e, c, pk⟩ := p
  simp only at h hpk hl
  subst h hpk hl
  rfl

theorem wfstream_next {p : Parser} (wf : WFStream p) :
    WFStream p.next_token := by
  obtain ⟨l, e, c, pk⟩ := p
  obtain ⟨hno, hpk, hc⟩ := wf
  simp only at hno hpk hc
  cases l with
  | nil =>
    refine ⟨?_, ?_, ?_⟩
    · simp [Parser.next_token, lexer_next]
    · intro _; rfl
    · intro _; rfl
  | cons t ts =>
    refine ⟨?_, ?_, ?_⟩
    · simp only [Parser.next_token, lexer_next]
      intro hmem
      exact hno (List.mem_cons_of_mem t hmem)
    · intro hpe
      simp only [Parser.next_token, lexer_next] at hpe
      exact absurd (hpe ▸ List.mem_cons_self t ts) hno
    · intro hce
      simp only [Parser.next_token, lexer_next] at hce ⊢
      have := hpk hce
      simp at this

theorem steps_next (p : Parser) : Steps p p.next_token := by
  refine ⟨measure_next_le p, fun wf => ⟨?_, wfstream_next wf⟩⟩
  by_cases hc : p.current_token = Token.eof
  · exact Or.inl (by rw [next_token_of_eof wf hc])
  · exact Or.inr (measure_next_lt hc)

theorem peek_error_tokState (p : Parser) (t : Token) :
    tokState (p.peek_error t) = tokState p := rfl

theorem push_error_tokState (p : Parser) (s : String) :
    tokState (p.push_error s) = tokState p := by
  unfold Parser.push_error; split <;> rfl

theorem steps_peek_error (p : Parser) (t : Token) : Steps p (p.peek_error t) :=
  steps_of_tokState (peek_error_tokState p t)

theorem steps_push_error (p : Parser) (s : String) : Steps p (p.push_error s) :=
  steps_of_tokState (push_error_tokState p s)

theorem expect_peek_true {p q : Parser} {t : Token}
    (h : p.expect_peek t = (true, q)) :
    p.peek_token_is t = true ∧ q = p.next_token := by
  unfold Parser.expect_peek at h
  split at h
  · exact ⟨by assumption, (Prod.mk.injEq .. ▸ h).2.symm⟩
  · exact absurd (Prod.mk.injEq .. ▸ h).1 (by simp)

theorem expect_peek_false {p q : Parser} {t : Token}
    (h : p.expect_peek t = (false, q)) :
    p.peek_token_is t = false ∧ q = p.peek_error t := by
  unfold Parser.expect_peek at h
  split at h
  · exact absurd (Prod.mk.injEq .. ▸ h).1 (by simp)
  · next hn => exact ⟨Bool.not_eq_true _ ▸ hn, (Prod.mk.injEq .. ▸ h).2.symm⟩

theorem peek_token_is_spec (p : Parser) (t : Token) (h : p.peek_token_is t = true) :
    ((∃ s, p.peek_token = Token.ident s) ∧ (∃ u, t = Token.ident u)) ∨
    ((∃ n, p.peek_token = Token.int n) ∧ (∃ m, t = Token.int m)) ∨
    p.peek_token = t := by
  unfold Parser.peek_token_is at h
  cases hpk : p.peek_token <;> rw [hpk] at h
  case ident s =>
    cases t <;> simp at h
    case ident u => exact Or.inl ⟨⟨s, rfl⟩, ⟨u, rfl⟩⟩
  case int n =>
    cases t <;> simp at h
    case int m => exact Or.inr (Or.inl ⟨⟨n, rfl⟩, ⟨m, rfl⟩⟩)
  all_goals exact Or.inr (Or.inr (eq_of_beq h))

theorem peek_ne_eof_of_token_is {p : Parser} {t : Token}
    (h : p.peek_token_is t = true) (ht : t ≠ Token.eof) :
    p.peek_token ≠ Token.eof := by
  rcases peek_token_is_spec p t h with ⟨⟨s, hs⟩, _⟩ | ⟨⟨n, hn⟩, _⟩ | heq
  · rw [hs]; intro hcontra; cases hcontra
  · rw [hn]; intro hcontra; cases hcontra
  · rw [heq]; exact ht

theorem expect_peek_true_strict {p q : Parser} {t : Token} (wf : WFStream p)
    (ht : t ≠ Token.eof) (h : p.expect_peek t = (true, q)) :
    q.measure < p.measure := by
  obtain ⟨his, hq⟩ := expect_peek_true h
  have hpk : p.peek_token ≠ Token.eof := peek_ne_eof_of_token_is his ht
  have hcur : p.current_token ≠ Token.eof := fun hc => hpk (wf.2.2 hc)
  rw [hq]
  exact measure_next_lt hcur

theorem current_is_eof_iff (p : Parser) :
    p.current_token_is Token.eof = true ↔ p.current_token = Token.eof := by
  unfold Parser.current_token_is
  cases hc : p.current_token <;> simp

/-- With the current token already at `Eof`, the expression parser fails
immediately with the "no prefix parse function" diagnostic and leaves
the state untouched (given at least two units of fuel). -/
theorem expr_parse_at_eof {n : Nat} (hn : 2 ≤ n) (prec : Nat) (p : Parser)
    (hc : p.current_token = Token.eof) :
    Expression.parse n prec p =
      some (Except.error ("no prefix parse function for "
        ++ Token.eof.display ++ " found"), p) := by
  obtain ⟨m, rfl⟩ : ∃ m, n = m + 2 := ⟨n - 2, by omega⟩
  simp only [Expression.parse, parse_prefix_rule, hc]

theorem master_zero : MasterAt 0 := by
  unfold MasterAt FnSpec
  exact ⟨fun prec p => ⟨fun a p' h => (nomatch h), fun _ h => by omega⟩,
    fun p => ⟨fun a p' h => (nomatch h), fun _ h => by omega⟩,
    fun prec left p => ⟨fun a p' h => (nomatch h), fun _ h => by omega⟩,
    fun endT p => ⟨fun a p' h => (nomatch h), fun _ h => by omega⟩,
    fun endT acc p => ⟨fun a p' h => (nomatch h), fun _ h => by omega⟩,
    fun p => ⟨fun a p' h => (nomatch h), fun _ h => by omega⟩,
    fun p => ⟨fun a p' h => (nomatch h), fun _ h => by omega⟩,
    fun p => ⟨fun a p' h => (nomatch h), fun _ h => by omega⟩,
    fun acc p => ⟨fun a p' h => (nomatch h), fun _ h => by omega⟩,
    fun p => ⟨fun a p' h => (nomatch h), fun _ h => by omega⟩,
    fun acc p => ⟨fun a p' h => (nomatch h), fun _ h => by omega⟩,
    fun p => ⟨fun a p' h => (nomatch h), fun _ h => by omega⟩,
    fun acc p => ⟨fun a p' h => (nomatch h), fun _ h => by omega⟩,
    fun p => ⟨fun a p' h => (nomatch h), fun _ h => by omega⟩,
    fun p => ⟨fun a p' h => (nomatch h), fun _ h => by omega⟩,
    fun p => ⟨fun a p' h => (nomatch h), fun _ h => by omega⟩,
    fun p => ⟨fun a p' h => (nomatch h), fun _ h => by omega⟩,
    fun acc p => ⟨fun a p' h => (nomatch h), fun _ h => by omega⟩⟩

theorem step_expr_parse (n : Nat) (ih : MasterAt n) :
    ∀ prec, FnSpec (ExceptResOk ExprOk) 6 (n + 1) (fun f p => Expression.parse f prec p) := by
  obtain ⟨ihEP, ihPR, ihIL, ihEL, ihELR, ihCD, ihFL, ihFP, ihFPR, ihHL, ihHP, ihBS,
    ihBR, ihST, ihLS, ihRS, ihES, ihPL⟩ := ih
  intro prec p
  constructor
  · intro a p' h
    simp only [Expression.parse] at h
    split at h
    · exact Option.noConfusion h
    · next e p₁ heq =>
      cases h
      exact ⟨((ihPR p).1 _ _ heq).1, trivial⟩
    · next left p₁ heq =>
      have hs := (ihPR p).1 _ _ heq
      have hs₂ := (ihIL prec left p₁).1 a p' h
      exact ⟨steps_trans hs.1 hs₂.1, hs₂.2 hs.2⟩
  · intro wf hf
    simp only [Expression.parse]
    have hPRB := (ihPR p).2 wf (by omega)
    cases hpr : parse_prefix_rule n p with
    | none => rw [hpr] at hPRB; simp at hPRB
    | some v =>
      obtain ⟨r₁, p₁⟩ := v
      cases r₁ with
      | error e => simp
      | ok left =>
        have hsteps := (ihPR p).1 _ _ hpr
        have hwf₁ := (hsteps.1.2 wf).2
        have hm₁ : p₁.measure ≤ p.measure := hsteps.1.1
        exact (ihIL prec left p₁).2 hwf₁ (by omega)

theorem step_prefix_rule (n : Nat) (ih : MasterAt n) :
    FnSpec (ExceptResOk ExprOk) 5 (n + 1) parse_prefix_rule := by
  obtain ⟨ihEP, ihPR, ihIL, ihEL, ihELR, ihCD, ihFL, ihFP, ihFPR, ihHL, ihHP, ihBS,
    ihBR, ihST, ihLS, ihRS, ihES, ihPL⟩ := ih
  intro p
  constructor
  · intro a p' h
    simp only [parse_prefix_rule] at h
    cases hc : p.current_token <;> rw [hc] at h <;> dsimp only at h
    case bang =>
      split at h
      · exact Option.noConfusion h
      · next e p₁ heq =>
        cases h
        exact ⟨steps_trans (steps_next p) ((ihEP prefixPrecedence p.next_token).1 _ _ heq).1,
          trivial⟩
      · next right p₁ heq =>
        cases h
        have hs := (ihEP prefixPrecedence p.next_token).1 _ _ heq
        exact ⟨steps_trans (steps_next p) hs.1, ExprOk.prefixE _ _ hs.2⟩
    case minus =>
      split at h
      · exact Option.noConfusion h
      · next e p₁ heq =>
        cases h
        exact ⟨steps_trans (steps_next p) ((ihEP prefixPrecedence p.next_token).1 _ _ heq).1,
          trivial⟩
      · next right p₁ heq =>
        cases h
        have hs := (ihEP prefixPrecedence p.next_token).1 _ _ heq
        exact ⟨steps_trans (steps_next p) hs.1, ExprOk.prefixE _ _ hs.2⟩
    case lparen =>
      split at h
      · exact Option.noConfusion h
      · next e p₁ heq =>
        cases h
        exact ⟨steps_trans (steps_next p) ((ihEP lowestPrecedence p.next_token).1 _ _ heq).1,
          trivial⟩
      · next inner p₁ heq =>
        have hs := (ihEP lowestPrecedence p.next_token).1 _ _ heq
        split at h
        · next p₂ hep =>
          cases h
          obtain ⟨-, rfl⟩ := expect_peek_true hep
          exact ⟨steps_trans (steps_next p) (steps_trans hs.1 (steps_next p₁)), hs.2⟩
        · next p₂ hep =>
          cases h
          obtain ⟨-, rfl⟩ := expect_peek_false hep
          exact ⟨steps_trans (steps_next p) (steps_trans hs.1 (steps_peek_error p₁ _)), trivial⟩
    case ifT => exact (ihCD p).1 _ _ h
    case functionT => exact (ihFL p).1 _ _ h
    case lbrace => exact (ihHL p).1 _ _ h
    case lbracket =>
      split at h
      · exact Option.noConfusion h
      · next e p₁ heq =>
        cases h
        exact ⟨((ihEL Token.rbracket p).1 _ _ heq).1, trivial⟩
      · next es p₁ heq =>
        cases h
        have hs := (ihEL Token.rbracket p).1 _ _ heq
        exact ⟨hs.1, ExprOk.arrayLiteral _ hs.2⟩
    all_goals
      cases h
      refine ⟨steps_refl _, ?_⟩
      first
      | exact trivial
      | exact ExprOk.identifier _
      | exact ExprOk.primitive _
  · intro wf hf
    simp only [parse_prefix_rule]
    cases hc : p.current_token <;> dsimp only
    case bang =>
      have hlt : (p.next_token).measure < p.measure := measure_next_lt (by rw [hc]; nofun)
      have hB := (ihEP prefixPrecedence p.next_token).2 (wfstream_next wf) (by omega)
      cases hin : Expression.parse n prefixPrecedence p.next_token with
      | none => simp only [hin] at hB; simp at hB
      | some v => obtain ⟨r₁, p₁⟩ := v; cases r₁ <;> simp
    case minus =>
      have hlt : (p.next_token).measure < p.measure := measure_next_lt (by rw [hc]; nofun)
      have hB := (ihEP prefixPrecedence p.next_token).2 (wfstream_next wf) (by omega)
      cases hin : Expression.parse n prefixPrecedence p.next_token with
      | none => simp only [hin] at hB; simp at hB
      | some v => obtain ⟨r₁, p₁⟩ := v; cases r₁ <;> simp
    case lparen =>
      have hlt : (p.next_token).measure < p.measure := measure_next_lt (by rw [hc]; nofun)
      have hB := (ihEP lowestPrecedence p.next_token).2 (wfstream_next wf) (by omega)
      cases hin : Expression.parse n lowestPrecedence p.next_token with
      | none => simp only [hin] at hB; simp at hB
      | some v =>
        obtain ⟨r₁, p₁⟩ := v
        cases r₁ with
        | error e => simp
        | ok inner =>
          dsimp only
          cases hep : p₁.expect_peek Token.rparen with
          | mk b p₂ => cases b <;> simp
    case ifT => exact (ihCD p).2 wf (by omega)
    case functionT => exact (ihFL p).2 wf (by omega)
    case lbrace => exact (ihHL p).2 wf (by omega)
    case lbracket =>
      have hB := (ihEL Token.rbracket p).2 wf (by omega)
      cases hin : parse_expression_list n Token.rbracket p with
      | none => simp only [hin] at hB; simp at hB
      | some v => obtain ⟨r₁, p₁⟩ := v; cases r₁ <;> simp
    all_goals simp

theorem step_infix_loop (n : Nat) (ih : MasterAt n) :
    ∀ prec left, FnSpec (fun r => ExprOk left → ExceptResOk ExprOk r) 1 (n + 1)
      (fun f p => parse_infix_loop f prec left p) := by
  obtain ⟨ihEP, ihPR, ihIL, ihEL, ihELR, ihCD, ihFL, ihFP, ihFPR, ihHL, ihHP, ihBS,
    ihBR, ihST, ihLS, ihRS, ihES, ihPL⟩ := ih
  intro prec left p
  constructor
  · intro a p' h
    simp only [parse_infix_loop] at h
    split at h
    · cases h; exact ⟨steps_refl _, fun hok => hok⟩
    split at h
    case isFalse => cases h; exact ⟨steps_refl _, fun hok => hok⟩
    cases hpk : p.peek_token <;> rw [hpk] at h <;> dsimp only at h
    case plus =>
      split at h
      · exact Option.noConfusion h
      · next e p₃ heq =>
        cases h
        exact ⟨steps_trans (steps_next p) (steps_trans (steps_next _)
          ((ihEP _ _).1 _ _ heq).1), fun _ => trivial⟩
      · next right p₃ heq =>
        have hs := (ihEP _ _).1 _ _ heq
        have hs₂ := (ihIL prec _ p₃).1 a p' h
        exact ⟨steps_trans (steps_next p) (steps_trans (steps_next _)
          (steps_trans hs.1 hs₂.1)),
          fun hok => hs₂.2 (ExprOk.infixE _ _ _ hok hs.2)⟩
    case minus =>
      split at h
      · exact Option.noConfusion h
      · next e p₃ heq =>
        cases h
        exact ⟨steps_trans (steps_next p) (steps_trans (steps_next _)
          ((ihEP _ _).1 _ _ heq).1), fun _ => trivial⟩
      · next right p₃ heq =>
        have hs := (ihEP _ _).1 _ _ heq
        have hs₂ := (ihIL prec _ p₃).1 a p' h
        exact ⟨steps_trans (steps_next p) (steps_trans (steps_next _)
          (steps_trans hs.1 hs₂.1)),
          fun hok => hs₂.2 (ExprOk.infixE _ _ _ hok hs.2)⟩
    case slash =>
      split at h
      · exact Option.noConfusion h
      · next e p₃ heq =>
        cases h
        exact ⟨steps_trans (steps_next p) (steps_trans (steps_next _)
          ((ihEP _ _).1 _ _ heq).1), fun _ => trivial⟩
      · next right p₃ heq =>
        have hs := (ihEP _ _).1 _ _ heq
        have hs₂ := (ihIL prec _ p₃).1 a p' h
        exact ⟨steps_trans (steps_next p) (steps_trans (steps_next _)
          (steps_trans hs.1 hs₂.1)),
          fun hok => hs₂.2 (ExprOk.infixE _ _ _ hok hs.2)⟩
    case asterisk =>
      split at h
      · exact Option.noConfusion h
      · next e p₃ heq =>
        cases h
        exact ⟨steps_trans (steps_next p) (steps_trans (steps_next _)
          ((ihEP _ _).1 _ _ heq).1), fun _ => trivial⟩
      · next right p₃ heq =>
        have hs := (ihEP _ _).1 _ _ heq
        have hs₂ := (ihIL prec _ p₃).1 a p' h
        exact ⟨steps_trans (steps_next p) (steps_trans (steps_next _)
          (steps_trans hs.1 hs₂.1)),
          fun hok => hs₂.2 (ExprOk.infixE _ _ _ hok hs.2)⟩
    case eq =>
      split at h
      · exact Option.noConfusion h
      · next e p₃ heq =>
        cases h
        exact ⟨steps_trans (steps_next p) (steps_trans (steps_next _)
          ((ihEP _ _).1 _ _ heq).1), fun _ => trivial⟩
      · next right p₃ heq =>
        have hs := (ihEP _ _).1 _ _ heq
        have hs₂ := (ihIL prec _ p₃).1 a p' h
        exact ⟨steps_trans (steps_next p) (steps_trans (steps_next _)
          (steps_trans hs.1 hs₂.1)),
          fun hok => hs₂.2 (ExprOk.infixE _ _ _ hok hs.2)⟩
    case notEq =>
      split at h
      · exact Option.noConfusion h
      · next e p₃ heq =>
        cases h
        exact ⟨steps_trans (steps_next p) (steps_trans (steps_next _)
          ((ihEP _ _).1 _ _ heq).1), fun _ => trivial⟩
      · next right p₃ heq =>
        have hs := (ihEP _ _).1 _ _ heq
        have hs₂ := (ihIL prec _ p₃).1 a p' h
        exact ⟨steps_trans (steps_next p) (steps_trans (steps_next _)
          (steps_trans hs.1 hs₂.1)),
          fun hok => hs₂.2 (ExprOk.infixE _ _ _ hok hs.2)⟩
    case lt =>
      split at h
      · exact Option.noConfusion h
      · next e p₃ heq =>
        cases h
        exact ⟨steps_trans (steps_next p) (steps_trans (steps_next _)
          ((ihEP _ _).1 _ _ heq).1), fun _ => trivial⟩
      · next right p₃ heq =>
        have hs := (ihEP _ _).1 _ _ heq
        have hs₂ := (ihIL prec _ p₃).1 a p' h
        exact ⟨steps_trans (steps_next p) (steps_trans (steps_next _)
          (steps_trans hs.1 hs₂.1)),
          fun hok => hs₂.2 (ExprOk.infixE _ _ _ hok hs.2)⟩
    case gt =>
      split at h
      · exact Option.noConfusion h
      · next e p₃ heq =>
        cases h
        exact ⟨steps_trans (steps_next p) (steps_trans (steps_next _)
          ((ihEP _ _).1 _ _ heq).1), fun _ => trivial⟩
      · next right p₃ heq =>
        have hs := (ihEP _ _).1 _ _ heq
        have hs₂ := (ihIL prec _ p₃).1 a p' h
        exact ⟨steps_trans (steps_next p) (steps_trans (steps_next _)
          (steps_trans hs.1 hs₂.1)),
          fun hok => hs₂.2 (ExprOk.infixE _ _ _ hok hs.2)⟩
    case lte =>
      split at h
      · exact Option.noConfusion h
      · next e p₃ heq =>
        cases h
        exact ⟨steps_trans (steps_next p) (steps_trans (steps_next _)
          ((ihEP _ _).1 _ _ heq).1), fun _ => trivial⟩
      · next right p₃ heq =>
        have hs := (ihEP _ _).1 _ _ heq
        have hs₂ := (ihIL prec _ p₃).1 a p' h
        exact ⟨steps_trans (steps_next p) (steps_trans (steps_next _)
          (steps_trans hs.1 hs₂.1)),
          fun hok => hs₂.2 (ExprOk.infixE _ _ _ hok hs.2)⟩
    case gte =>
      split at h
      · exact Option.noConfusion h
      · next e p₃ heq =>
        cases h
        exact ⟨steps_trans (steps_next p) (steps_trans (steps_next _)
          ((ihEP _ _).1 _ _ heq).1), fun _ => trivial⟩
      · next right p₃ heq =>
        have hs := (ihEP _ _).1 _ _ heq
        have hs₂ := (ihIL prec _ p₃).1 a p' h
        exact ⟨steps_trans (steps_next p) (steps_trans (steps_next _)
          (steps_trans hs.1 hs₂.1)),
          fun hok => hs₂.2 (ExprOk.infixE _ _ _ hok hs.2)⟩
    case andT =>
      split at h
      · exact Option.noConfusion h
      · next e p₃ heq =>
        cases h
        exact ⟨steps_trans (steps_next p) (steps_trans (steps_next _)
          ((ihEP _ _).1 _ _ heq).1), fun _ => trivial⟩
      · next right p₃ heq =>
        have hs := (ihEP _ _).1 _ _ heq
        have hs₂ := (ihIL prec _ p₃).1 a p' h
        exact ⟨steps_trans (steps_next p) (steps_trans (steps_next _)
          (steps_trans hs.1 hs₂.1)),
          fun hok => hs₂.2 (ExprOk.infixE _ _ _ hok hs.2)⟩
    case orT =>
      split at h
      · exact Option.noConfusion h
      · next e p₃ heq =>
        cases h
        exact ⟨steps_trans (steps_next p) (steps_trans (steps_next _)
          ((ihEP _ _).1 _ _ heq).1), fun _ => trivial⟩
      · next right p₃ heq =>
        have hs := (ihEP _ _).1 _ _ heq
        have hs₂ := (ihIL prec _ p₃).1 a p' h
        exact ⟨steps_trans (steps_next p) (steps_trans (steps_next _)
          (steps_trans hs.1 hs₂.1)),
          fun hok => hs₂.2 (ExprOk.infixE _ _ _ hok hs.2)⟩
    case lparen =>
      split at h
      · exact Option.noConfusion h
      · next e p₂ heq =>
        cases h
        exact ⟨steps_trans (steps_next p) ((ihEL Token.rparen p.next_token).1 _ _ heq).1,
          fun _ => trivial⟩
      · next args p₂ heq =>
        have hs := (ihEL Token.rparen p.next_token).1 _ _ heq
        have hs₂ := (ihIL prec _ p₂).1 a p' h
        exact ⟨steps_trans (steps_next p) (steps_trans hs.1 hs₂.1),
          fun hok => hs₂.2 (ExprOk.functionCall _ _ hok hs.2)⟩
    case lbracket =>
      split at h
      · exact Option.noConfusion h
      · next e p₂ heq =>
        cases h
        exact ⟨steps_trans (steps_next p) (steps_trans (steps_next _)
          ((ihEP _ _).1 _ _ heq).1), fun _ => trivial⟩
      · next idx p₂ heq =>
        have hs := (ihEP lowestPrecedence p.next_token.next_token).1 _ _ heq
        split at h
        · next p₃ hep =>
          obtain ⟨-, rfl⟩ := expect_peek_true hep
          have hs₂ := (ihIL prec _ p₂.next_token).1 a p' h
          exact ⟨steps_trans (steps_next p) (steps_trans (steps_next _)
            (steps_trans hs.1 (steps_trans (steps_next p₂) hs₂.1))),
            fun hok => hs₂.2 (ExprOk.indexExpression _ _ hok hs.2)⟩
        · next p₃ hep =>
          cases h
          obtain ⟨-, rfl⟩ := expect_peek_false hep
          exact ⟨steps_trans (steps_next p) (steps_trans (steps_next _)
            (steps_trans hs.1 (steps_peek_error p₂ _))), fun _ => trivial⟩
    all_goals (cases h; exact ⟨steps_refl _, fun hok => hok⟩)
  · intro wf hf
    simp only [parse_infix_loop]
    split
    · simp
    split
    case isFalse => simp
    cases hpk : p.peek_token <;> dsimp only
    case plus =>
      have hpne : p.peek_token ≠ Token.eof := by rw [hpk]; nofun
      have hcur : p.current_token ≠ Token.eof := fun hce => hpne (wf.2.2 hce)
      have hlt : (p.next_token).measure < p.measure := measure_next_lt hcur
      have hle : (p.next_token.next_token).measure ≤ (p.next_token).measure :=
        measure_next_le _
      have hwf₂ : WFStream p.next_token.next_token := wfstream_next (wfstream_next wf)
      have hB := (ihEP (p.next_token.current_precedence) p.next_token.next_token).2 hwf₂
        (by omega)
      cases hin : Expression.parse n (p.next_token.current_precedence)
          p.next_token.next_token with
      | none => simp only [hin] at hB; simp at hB
      | some v =>
        obtain ⟨r₁, p₃⟩ := v
        cases r₁ with
        | error e => simp
        | ok right =>
          dsimp only
          have hs := (ihEP (p.next_token.current_precedence) p.next_token.next_token).1 _ _ hin
          have hwf₃ := (hs.1.2 hwf₂).2
          have hm₃ : p₃.measure ≤ (p.next_token.next_token).measure := hs.1.1
          exact (ihIL prec (Expression.infixExpr p.next_token.current_token left right)
            p₃).2 hwf₃ (by omega)
    case minus =>
      have hpne : p.peek_token ≠ Token.eof := by rw [hpk]; nofun
      have hcur : p.current_token ≠ Token.eof := fun hce => hpne (wf.2.2 hce)
      have hlt : (p.next_token).measure < p.measure := measure_next_lt hcur
      have hle : (p.next_token.next_token).measure ≤ (p.next_token).measure :=
        measure_next_le _
      have hwf₂ : WFStream p.next_token.next_token := wfstream_next (wfstream_next wf)
      have hB := (ihEP (p.next_token.current_precedence) p.next_token.next_token).2 hwf₂
        (by omega)
      cases hin : Expression.parse n (p.next_token.current_precedence)
          p.next_token.next_token with
      | none => simp only [hin] at hB; simp at hB
      | some v =>
        obtain ⟨r₁, p₃⟩ := v
        cases r₁ with
        | error e => simp
        | ok right =>
          dsimp only
          have hs := (ihEP (p.next_token.current_precedence) p.next_token.next_token).1 _ _ hin
          have hwf₃ := (hs.1.2 hwf₂).2
          have hm₃ : p₃.measure ≤ (p.next_token.next_token).measure := hs.1.1
          exact (ihIL prec (Expression.infixExpr p.next_token.current_token left right)
            p₃).2 hwf₃ (by omega)
    case slash =>
      have hpne : p.peek_token ≠ Token.eof := by rw [hpk]; nofun
      have hcur : p.current_token ≠ Token.eof := fun hce => hpne (wf.2.2 hce)
      have hlt : (p.next_token).measure < p.measure := measure_next_lt hcur
      have hle : (p.next_token.next_token).measure ≤ (p.next_token).measure :=
        measure_next_le _
      have hwf₂ : WFStream p.next_token.next_token := wfstream_next (wfstream_next wf)
      have hB := (ihEP (p.next_token.current_precedence) p.next_token.next_token).2 hwf₂
        (by omega)
      cases hin : Expression.parse n (p.next_token.current_precedence)
          p.next_token.next_token with
      | none => simp only [hin] at hB; simp at hB
      | some v =>
        obtain ⟨r₁, p₃⟩ := v
        cases r₁ with
        | error e => simp
        | ok right =>
          dsimp only
          have hs := (ihEP (p.next_token.current_precedence) p.next_token.next_token).1 _ _ hin
          have hwf₃ := (hs.1.2 hwf₂).2
          have hm₃ : p₃.measure ≤ (p.next_token.next_token).measure := hs.1.1
          exact (ihIL prec (Expression.infixExpr p.next_token.current_token left right)
            p₃).2 hwf₃ (by omega)
    case asterisk =>
      have hpne : p.peek_token ≠ Token.eof := by rw [hpk]; nofun
      have hcur : p.current_token ≠ Token.eof := fun hce => hpne (wf.2.2 hce)
      have hlt : (p.next_token).measure < p.measure := measure_next_lt hcur
      have hle : (p.next_token.next_token).measure ≤ (p.next_token).measure :=
        measure_next_le _
      have hwf₂ : WFStream p.next_token.next_token := wfstream_next (wfstream_next wf)
      have hB := (ihEP (p.next_token.current_precedence) p.next_token.next_token).2 hwf₂
        (by omega)
      cases hin : Expression.parse n (p.next_token.current_precedence)
          p.next_token.next_token with
      | none => simp only [hin] at hB; simp at hB
      | some v =>
        obtain ⟨r₁, p₃⟩ := v
        cases r₁ with
        | error e => simp
        | ok right =>
          dsimp only
          have hs := (ihEP (p.next_token.current_precedence) p.next_token.next_token).1 _ _ hin
          have hwf₃ := (hs.1.2 hwf₂).2
          have hm₃ : p₃.measure ≤ (p.next_token.next_token).measure := hs.1.1
          exact (ihIL prec (Expression.infixExpr p.next_token.current_token left right)
            p₃).2 hwf₃ (by omega)
    case eq =>
      have hpne : p.peek_token ≠ Token.eof := by rw [hpk]; nofun
      have hcur : p.current_token ≠ Token.eof := fun hce => hpne (wf.2.2 hce)
      have hlt : (p.next_token).measure < p.measure := measure_next_lt hcur
      have hle : (p.next_token.next_token).measure ≤ (p.next_token).measure :=
        measure_next_le _
      have hwf₂ : WFStream p.next_token.next_token := wfstream_next (wfstream_next wf)
      have hB := (ihEP (p.next_token.current_precedence) p.next_token.next_token).2 hwf₂
        (by omega)
      cases hin : Expression.parse n (p.next_token.current_precedence)
          p.next_token.next_token with
      | none => simp only [hin] at hB; simp at hB
      | some v =>
        obtain ⟨r₁, p₃⟩ := v
        cases r₁ with
        | error e => simp
        | ok right =>
          dsimp only
          have hs := (ihEP (p.next_token.current_precedence) p.next_token.next_token).1 _ _ hin
          have hwf₃ := (hs.1.2 hwf₂).2
          have hm₃ : p₃.measure ≤ (p.next_token.next_token).measure := hs.1.1
          exact (ihIL prec (Expression.infixExpr p.next_token.current_token left right)
            p₃).2 hwf₃ (by omega)
    case notEq =>
      have hpne : p.peek_token ≠ Token.eof := by rw [hpk]; nofun
      have hcur : p.current_token ≠ Token.eof := fun hce => hpne (wf.2.2 hce)
      have hlt : (p.next_token).measure < p.measure := measure_next_lt hcur
      have hle : (p.next_token.next_token).measure ≤ (p.next_token).measure :=
        measure_next_le _
      have hwf₂ : WFStream p.next_token.next_token := wfstream_next (wfstream_next wf)
      have hB := (ihEP (p.next_token.current_precedence) p.next_token.next_token).2 hwf₂
        (by omega)
      cases hin : Expression.parse n (p.next_token.current_precedence)
          p.next_token.next_token with
      | none => simp only [hin] at hB; simp at hB
      | some v =>
        obtain ⟨r₁, p₃⟩ := v
        cases r₁ with
        | error e => simp
        | ok right =>
          dsimp only
          have hs := (ihEP (p.next_token.current_precedence) p.next_token.next_token).1 _ _ hin
          have hwf₃ := (hs.1.2 hwf₂).2
          have hm₃ : p₃.measure ≤ (p.next_token.next_token).measure := hs.1.1
          exact (ihIL prec (Expression.infixExpr p.next_token.current_token left right)
            p₃).2 hwf₃ (by omega)
    case lt =>
      have hpne : p.peek_token ≠ Token.eof := by rw [hpk]; nofun
      have hcur : p.current_token ≠ Token.eof := fun hce => hpne (wf.2.2 hce)
      have hlt : (p.next_token).measure < p.measure := measure_next_lt hcur
      have hle : (p.next_token.next_token).measure ≤ (p.next_token).measure :=
        measure_next_le _
      have hwf₂ : WFStream p.next_token.next_token := wfstream_next (wfstream_next wf)
      have hB := (ihEP (p.next_token.current_precedence) p.next_token.next_token).2 hwf₂
        (by omega)
      cases hin : Expression.parse n (p.next_token.current_precedence)
          p.next_token.next_token with
      | none => simp only [hin] at hB; simp at hB
      | some v =>
        obtain ⟨r₁, p₃⟩ := v
        cases r₁ with
        | error e => simp
        | ok right =>
          dsimp only
          have hs := (ihEP (p.next_token.current_precedence) p.next_token.next_token).1 _ _ hin
          have hwf₃ := (hs.1.2 hwf₂).2
          have hm₃ : p₃.measure ≤ (p.next_token.next_token).measure := hs.1.1
          exact (ihIL prec (Expression.infixExpr p.next_token.current_token left right)
            p₃).2 hwf₃ (by omega)
    case gt =>
      have hpne : p.peek_token ≠ Token.eof := by rw [hpk]; nofun
      have hcur : p.current_token ≠ Token.eof := fun hce => hpne (wf.2.2 hce)
      have hlt : (p.next_token).measure < p.measure := measure_next_lt hcur
      have hle : (p.next_token.next_token).measure ≤ (p.next_token).measure :=
        measure_next_le _
      have hwf₂ : WFStream p.next_token.next_token := wfstream_next (wfstream_next wf)
      have hB := (ihEP (p.next_token.current_precedence) p.next_token.next_token).2 hwf₂
        (by omega)
      cases hin : Expression.parse n (p.next_token.current_precedence)
          p.next_token.next_token with
      | none => simp only [hin] at hB; simp at hB
      | some v =>
        obtain ⟨r₁, p₃⟩ := v
        cases r₁ with
        | error e => simp
        | ok right =>
          dsimp only
          have hs := (ihEP (p.next_token.current_precedence) p.next_token.next_token).1 _ _ hin
          have hwf₃ := (hs.1.2 hwf₂).2
          have hm₃ : p₃.measure ≤ (p.next_token.next_token).measure := hs.1.1
          exact (ihIL prec (Expression.infixExpr p.next_token.current_token left right)
            p₃).2 hwf₃ (by omega)
    case lte =>
      have hpne : p.peek_token ≠ Token.eof := by rw [hpk]; nofun
      have hcur : p.current_token ≠ Token.eof := fun hce => hpne (wf.2.2 hce)
      have hlt : (p.next_token).measure < p.measure := measure_next_lt hcur
      have hle : (p.next_token.next_token).measure ≤ (p.next_token).measure :=
        measure_next_le _
      have hwf₂ : WFStream p.next_token.next_token := wfstream_next (wfstream_next wf)
      have hB := (ihEP (p.next_token.current_precedence) p.next_token.next_token).2 hwf₂
        (by omega)
      cases hin : Expression.parse n (p.next_token.current_precedence)
          p.next_token.next_token with
      | none => simp only [hin] at hB; simp at hB
      | some v =>
        obtain ⟨r₁, p₃⟩ := v
        cases r₁ with
        | error e => simp
        | ok right =>
          dsimp only
          have hs := (ihEP (p.next_token.current_precedence) p.next_token.next_token).1 _ _ hin
          have hwf₃ := (hs.1.2 hwf₂).2
          have hm₃ : p₃.measure ≤ (p.next_token.next_token).measure := hs.1.1
          exact (ihIL prec (Expression.infixExpr p.next_token.current_token left right)
            p₃).2 hwf₃ (by omega)
    case gte =>
      have hpne : p.peek_token ≠ Token.eof := by rw [hpk]; nofun
      have hcur : p.current_token ≠ Token.eof := fun hce => hpne (wf.2.2 hce)
      have hlt : (p.next_token).measure < p.measure := measure_next_lt hcur
      have hle : (p.next_token.next_token).measure ≤ (p.next_token).measure :=
        measure_next_le _
      have hwf₂ : WFStream p.next_token.next_token := wfstream_next (wfstream_next wf)
      have hB := (ihEP (p.next_token.current_precedence) p.next_token.next_token).2 hwf₂
        (by omega)
      cases hin : Expression.parse n (p.next_token.current_precedence)
          p.next_token.next_token with
      | none => simp only [hin] at hB; simp at hB
      | some v =>
        obtain ⟨r₁, p₃⟩ := v
        cases r₁ with
        | error e => simp
        | ok right =>
          dsimp only
          have hs := (ihEP (p.next_token.current_precedence) p.next_token.next_token).1 _ _ hin
          have hwf₃ := (hs.1.2 hwf₂).2
          have hm₃ : p₃.measure ≤ (p.next_token.next_token).measure := hs.1.1
          exact (ihIL prec (Expression.infixExpr p.next_token.current_token left right)
            p₃).2 hwf₃ (by omega)
    case andT =>
      have hpne : p.peek_token ≠ Token.eof := by rw [hpk]; nofun
      have hcur : p.current_token ≠ Token.eof := fun hce => hpne (wf.2.2 hce)
      have hlt : (p.next_token).measure < p.measure := measure_next_lt hcur
      have hle : (p.next_token.next_token).measure ≤ (p.next_token).measure :=
        measure_next_le _
      have hwf₂ : WFStream p.next_token.next_token := wfstream_next (wfstream_next wf)
      have hB := (ihEP (p.next_token.current_precedence) p.next_token.next_token).2 hwf₂
        (by omega)
      cases hin : Expression.parse n (p.next_token.current_precedence)
          p.next_token.next_token with
      | none => simp only [hin] at hB; simp at hB
      | some v =>
        obtain ⟨r₁, p₃⟩ := v
        cases r₁ with
        | error e => simp
        | ok right =>
          dsimp only
          have hs := (ihEP (p.next_token.current_precedence) p.next_token.next_token).1 _ _ hin
          have hwf₃ := (hs.1.2 hwf₂).2
          have hm₃ : p₃.measure ≤ (p.next_token.next_token).measure := hs.1.1
          exact (ihIL prec (Expression.infixExpr p.next_token.current_token left right)
            p₃).2 hwf₃ (by omega)
    case orT =>
      have hpne : p.peek_token ≠ Token.eof := by rw [hpk]; nofun
      have hcur : p.current_token ≠ Token.eof := fun hce => hpne (wf.2.2 hce)
      have hlt : (p.next_token).measure < p.measure := measure_next_lt hcur
      have hle : (p.next_token.next_token).measure ≤ (p.next_token).measure :=
        measure_next_le _
      have hwf₂ : WFStream p.next_token.next_token := wfstream_next (wfstream_next wf)
      have hB := (ihEP (p.next_token.current_precedence) p.next_token.next_token).2 hwf₂
        (by omega)
      cases hin : Expression.parse n (p.next_token.current_precedence)
          p.next_token.next_token with
      | none => simp only [hin] at hB; simp at hB
      | some v =>
        obtain ⟨r₁, p₃⟩ := v
        cases r₁ with
        | error e => simp
        | ok right =>
          dsimp only
          have hs := (ihEP (p.next_token.current_precedence) p.next_token.next_token).1 _ _ hin
          have hwf₃ := (hs.1.2 hwf₂).2
          have hm₃ : p₃.measure ≤ (p.next_token.next_token).measure := hs.1.1
          exact (ihIL prec (Expression.infixExpr p.next_token.current_token left right)
            p₃).2 hwf₃ (by omega)
    case lparen =>
      have hpne : p.peek_token ≠ Token.eof := by rw [hpk]; nofun
      have hcur : p.current_token ≠ Token.eof := fun hce => hpne (wf.2.2 hce)
      have hlt : (p.next_token).measure < p.measure := measure_next_lt hcur
      have hwf₁ : WFStream p.next_token := wfstream_next wf
      have hB := (ihEL Token.rparen p.next_token).2 hwf₁ (by omega)
      cases hin : parse_expression_list n Token.rparen p.next_token with
      | none => simp only [hin] at hB; simp at hB
      | some v =>
        obtain ⟨r₁, p₂⟩ := v
        cases r₁ with
        | error e => simp
        | ok args =>
          dsimp only
          have hs := (ihEL Token.rparen p.next_token).1 _ _ hin
          have hwf₂ := (hs.1.2 hwf₁).2
          have hm₂ : p₂.measure ≤ (p.next_token).measure := hs.1.1
          exact (ihIL prec (Expression.functionCall left args) p₂).2 hwf₂ (by omega)
    case lbracket =>
      have hpne : p.peek_token ≠ Token.eof := by rw [hpk]; nofun
      have hcur : p.current_token ≠ Token.eof := fun hce => hpne (wf.2.2 hce)
      have hlt : (p.next_token).measure < p.measure := measure_next_lt hcur
      have hle : (p.next_token.next_token).measure ≤ (p.next_token).measure :=
        measure_next_le _
      have hwf₂ : WFStream p.next_token.next_token := wfstream_next (wfstream_next wf)
      have hB := (ihEP lowestPrecedence p.next_token.next_token).2 hwf₂ (by omega)
      cases hin : Expression.parse n lowestPrecedence p.next_token.next_token with
      | none => simp only [hin] at hB; simp at hB
      | some v =>
        obtain ⟨r₁, p₂⟩ := v
        cases r₁ with
        | error e => simp
        | ok idx =>
          dsimp only
          have hs := (ihEP lowestPrecedence p.next_token.next_token).1 _ _ hin
          have hwf₂b := (hs.1.2 hwf₂).2
          have hm₂ : p₂.measure ≤ (p.next_token.next_token).measure := hs.1.1
          cases hep : p₂.expect_peek Token.rbracket with
          | mk b p₃ =>
            cases b
            · simp
            · dsimp only
              obtain ⟨-, rfl⟩ := expect_peek_true hep
              have hwf₃ : WFStream p₂.next_token := wfstream_next hwf₂b
              have hm₃ : (p₂.next_token).measure ≤ p₂.measure := measure_next_le _
              exact (ihIL prec (Expression.indexExpression left idx) p₂.next_token).2
                hwf₃ (by omega)
    all_goals simp

theorem step_expression_list (n : Nat) (ih : MasterAt n) :
    ∀ endT, FnSpec (ExceptResOk (fun es => ∀ e ∈ es, ExprOk e)) 3 (n + 1)
      (fun f p => parse_expression_list f endT p) := by
  obtain ⟨ihEP, ihPR, ihIL, ihEL, ihELR, ihCD, ihFL, ihFP, ihFPR, ihHL, ihHP, ihBS,
    ihBR, ihST, ihLS, ihRS, ihES, ihPL⟩ := ih
  intro endT p
  constructor
  · intro a p' h
    simp only [parse_expression_list] at h
    split at h
    · cases h
      exact ⟨steps_next p, by intro e he; cases he⟩
    · split at h
      · exact Option.noConfusion h
      · next e p₂ heq =>
        cases h
        exact ⟨steps_trans (steps_next p) ((ihEP lowestPrecedence p.next_token).1 _ _ heq).1,
          trivial⟩
      · next e₀ p₂ heq =>
        have hs := (ihEP lowestPrecedence p.next_token).1 _ _ heq
        have hs₂ := (ihELR endT [e₀] p₂).1 a p' h
        refine ⟨steps_trans (steps_next p) (steps_trans hs.1 hs₂.1), hs₂.2 ?_⟩
        intro e he
        rcases List.mem_singleton.mp he with rfl
        exact hs.2
  · intro wf hf
    simp only [parse_expression_list]
    split
    · simp
    · by_cases hce : p.current_token = Token.eof
      · rw [next_token_of_eof wf hce]
        rw [expr_parse_at_eof (by omega) lowestPrecedence p hce]
        simp
      · have hlt : (p.next_token).measure < p.measure := measure_next_lt hce
        have hwf₁ : WFStream p.next_token := wfstream_next wf
        have hB := (ihEP lowestPrecedence p.next_token).2 hwf₁ (by omega)
        cases hin : Expression.parse n lowestPrecedence p.next_token with
        | none => simp only [hin] at hB; simp at hB
        | some v =>
          obtain ⟨r₁, p₂⟩ := v
          cases r₁ with
          | error e => simp
          | ok e₀ =>
            dsimp only
            have hs := (ihEP lowestPrecedence p.next_token).1 _ _ hin
            have hwf₂ := (hs.1.2 hwf₁).2
            have hm₂ : p₂.measure ≤ (p.next_token).measure := hs.1.1
            exact (ihELR endT [e₀] p₂).2 hwf₂ (by omega)

theorem step_expression_list_rest (n : Nat) (ih : MasterAt n) :
    ∀ endT acc, FnSpec (fun r => (∀ e ∈ acc, ExprOk e) →
        ExceptResOk (fun es => ∀ e ∈ es, ExprOk e) r) 1 (n + 1)
      (fun f p => parse_expression_list_rest f endT acc p) := by
  obtain ⟨ihEP, ihPR, ihIL, ihEL, ihELR, ihCD, ihFL, ihFP, ihFPR, ihHL, ihHP, ihBS,
    ihBR, ihST, ihLS, ihRS, ihES, ihPL⟩ := ih
  intro endT acc p
  constructor
  · intro a p' h
    simp only [parse_expression_list_rest] at h
    split at h
    · split at h
      · exact Option.noConfusion h
      · next e p₂ heq =>
        cases h
        exact ⟨steps_trans (steps_next p) (steps_trans (steps_next _)
          ((ihEP lowestPrecedence p.next_token.next_token).1 _ _ heq).1), fun _ => trivial⟩
      · next e₀ p₂ heq =>
        have hs := (ihEP lowestPrecedence p.next_token.next_token).1 _ _ heq
        have hs₂ := (ihELR endT (acc ++ [e₀]) p₂).1 a p' h
        refine ⟨steps_trans (steps_next p) (steps_trans (steps_next _)
          (steps_trans hs.1 hs₂.1)), fun hacc => hs₂.2 ?_⟩
        intro e he
        rcases List.mem_append.mp he with he' | he'
        · exact hacc e he'
        · rcases List.mem_singleton.mp he' with rfl
          exact hs.2
    · split at h
      · next p₁ hep =>
        cases h
        obtain ⟨-, rfl⟩ := expect_peek_true hep
        exact ⟨steps_next p, fun hacc => hacc⟩
      · next p₁ hep =>
        cases h
        obtain ⟨-, rfl⟩ := expect_peek_false hep
        exact ⟨steps_peek_error p _, fun _ => trivial⟩
  · intro wf hf
    simp only [parse_expression_list_rest]
    split
    · next hcomma =>
      have hpne : p.peek_token ≠ Token.eof :=
        peek_ne_eof_of_token_is hcomma (by nofun)
      have hcur : p.current_token ≠ Token.eof := fun hce => hpne (wf.2.2 hce)
      have hlt : (p.next_token).measure < p.measure := measure_next_lt hcur
      have hle : (p.next_token.next_token).measure ≤ (p.next_token).measure :=
        measure_next_le _
      have hwf₂ : WFStream p.next_token.next_token := wfstream_next (wfstream_next wf)
      have hB := (ihEP lowestPrecedence p.next_token.next_token).2 hwf₂ (by omega)
      cases hin : Expression.parse n lowestPrecedence p.next_token.next_token with
      | none => simp only [hin] at hB; simp at hB
      | some v =>
        obtain ⟨r₁, p₂⟩ := v
        cases r₁ with
        | error e => simp
        | ok e₀ =>
          dsimp only
          have hs := (ihEP lowestPrecedence p.next_token.next_token).1 _ _ hin
          have hwf₂b := (hs.1.2 hwf₂).2
          have hm₂ : p₂.measure ≤ (p.next_token.next_token).measure := hs.1.1
          exact (ihELR endT (acc ++ [e₀]) p₂).2 hwf₂b (by omega)
    · cases hep : p.expect_peek endT with
      | mk b p₁ => cases b <;> simp

theorem steps_next₂ (p : Parser) : Steps p p.next_token.next_token :=
  steps_trans (steps_next p) (steps_next _)

theorem step_conditional (n : Nat) (ih : MasterAt n) :
    FnSpec (ExceptResOk ExprOk) 1 (n + 1) parse_conditional := by
  obtain ⟨ihEP, ihPR, ihIL, ihEL, ihELR, ihCD, ihFL, ihFP, ihFPR, ihHL, ihHP, ihBS,
    ihBR, ihST, ihLS, ihRS, ihES, ihPL⟩ := ih
  intro p
  constructor
  · intro a p' h
    simp only [parse_conditional] at h
    split at h
    · next p₁ hep =>
      cases h
      obtain ⟨-, rfl⟩ := expect_peek_false hep
      exact ⟨steps_peek_error p _, trivial⟩
    · next p₁ hep =>
      obtain ⟨-, rfl⟩ := expect_peek_true hep
      split at h
      · exact Option.noConfusion h
      · next e p₃ heq =>
        cases h
        exact ⟨steps_trans (steps_next₂ p) ((ihEP lowestPrecedence _).1 _ _ heq).1, trivial⟩
      · next cond p₃ heq =>
        have hsE := (ihEP lowestPrecedence p.next_token.next_token).1 _ _ heq
        have sp₃ : Steps p p₃ := steps_trans (steps_next₂ p) hsE.1
        split at h
        · next p₄ hep₂ =>
          cases h
          obtain ⟨-, rfl⟩ := expect_peek_false hep₂
          exact ⟨steps_trans sp₃ (steps_peek_error p₃ _), trivial⟩
        · next p₄ hep₂ =>
          obtain ⟨-, rfl⟩ := expect_peek_true hep₂
          have sp₄ : Steps p p₃.next_token := steps_trans sp₃ (steps_next p₃)
          split at h
          · next p₅ hep₃ =>
            cases h
            obtain ⟨-, rfl⟩ := expect_peek_false hep₃
            exact ⟨steps_trans sp₄ (steps_peek_error _ _), trivial⟩
          · next p₅ hep₃ =>
            obtain ⟨-, rfl⟩ := expect_peek_true hep₃
            have sp₅ : Steps p p₃.next_token.next_token := steps_trans sp₄ (steps_next _)
            split at h
            · exact Option.noConfusion h
            · next cons p₆ hbq =>
              have hsB := (ihBS (p₃.next_token.next_token)).1 _ _ hbq
              have sp₆ : Steps p p₆ := steps_trans sp₅ hsB.1
              split at h
              · split at h
                · next p₈ hep₄ =>
                  cases h
                  obtain ⟨-, rfl⟩ := expect_peek_false hep₄
                  exact ⟨steps_trans sp₆ (steps_trans (steps_next p₆)
                    (steps_peek_error _ _)), trivial⟩
                · next p₈ hep₄ =>
                  obtain ⟨-, rfl⟩ := expect_peek_true hep₄
                  split at h
                  · exact Option.noConfusion h
                  · next alt p₉ hbq₂ =>
                    cases h
                    have hsB₂ := (ihBS (p₆.next_token.next_token)).1 _ _ hbq₂
                    exact ⟨steps_trans sp₆ (steps_trans (steps_next₂ p₆) hsB₂.1),
                      ExprOk.conditionalSome _ _ _ hsE.2 hsB.2 hsB₂.2⟩
              · cases h
                exact ⟨sp₆, ExprOk.conditionalNone _ _ hsE.2 hsB.2⟩
  · intro wf hf
    simp only [parse_conditional]
    cases hep : p.expect_peek Token.lparen with
    | mk b p₁ =>
      cases b
      · simp
      · dsimp only
        have hm₁ : (p₁).measure < p.measure := expect_peek_true_strict wf (by nofun) hep
        obtain ⟨-, rfl⟩ := expect_peek_true hep
        have hwf₁ : WFStream p.next_token := wfstream_next wf
        have hm₂ := measure_next_le p.next_token
        have hwf₂ := wfstream_next hwf₁
        have hB := (ihEP lowestPrecedence p.next_token.next_token).2 hwf₂ (by omega)
        cases hin : Expression.parse n lowestPrecedence p.next_token.next_token with
        | none => simp only [hin] at hB; simp at hB
        | some v =>
          obtain ⟨r₁, p₃⟩ := v
          cases r₁ with
          | error e => simp
          | ok cond =>
            dsimp only
            have hsE := (ihEP lowestPrecedence p.next_token.next_token).1 _ _ hin
            have hwf₃ := (hsE.1.2 hwf₂).2
            have hm₃ : p₃.measure ≤ (p.next_token.next_token).measure := hsE.1.1
            cases hep₂ : p₃.expect_peek Token.rparen with
            | mk b₂ p₄ =>
              cases b₂
              · simp
              · dsimp only
                obtain ⟨-, rfl⟩ := expect_peek_true hep₂
                have hwf₄ := wfstream_next hwf₃
                have hm₄ := measure_next_le p₃
                cases hep₃ : p₃.next_token.expect_peek Token.lbrace with
                | mk b₃ p₅ =>
                  cases b₃
                  · simp
                  · dsimp only
                    obtain ⟨-, rfl⟩ := expect_peek_true hep₃
                    have hwf₅ := wfstream_next hwf₄
                    have hm₅ := measure_next_le p₃.next_token
                    have hBB := (ihBS (p₃.next_token.next_token)).2 hwf₅ (by omega)
                    cases hbq : parse_block_statement n p₃.next_token.next_token with
                    | none => simp only [hbq] at hBB; simp at hBB
                    | some v₂ =>
                      obtain ⟨cons, p₆⟩ := v₂
                      dsimp only
                      have hsB := (ihBS (p₃.next_token.next_token)).1 _ _ hbq
                      have hwf₆ := (hsB.1.2 hwf₅).2
                      have hm₆ : p₆.measure ≤ (p₃.next_token.next_token).measure := hsB.1.1
                      split
                      · cases hep₄ : p₆.next_token.expect_peek Token.lbrace with
                        | mk b₄ p₈ =>
                          cases b₄
                          · simp
                          · dsimp only
                            obtain ⟨-, rfl⟩ := expect_peek_true hep₄
                            have hwf₈ := wfstream_next (wfstream_next hwf₆)
                            have hm₈ : (p₆.next_token.next_token).measure ≤ p₆.measure :=
                              le_trans (measure_next_le _) (measure_next_le _)
                            have hBB₂ := (ihBS (p₆.next_token.next_token)).2 hwf₈ (by omega)
                            cases hbq₂ : parse_block_statement n p₆.next_token.next_token with
                            | none => simp only [hbq₂] at hBB₂; simp at hBB₂
                            | some v₃ => obtain ⟨alt, p₉⟩ := v₃; simp
                      · simp

theorem step_function_literal (n : Nat) (ih : MasterAt n) :
    FnSpec (ExceptResOk ExprOk) 1 (n + 1) parse_function_literal := by
  obtain ⟨ihEP, ihPR, ihIL, ihEL, ihELR, ihCD, ihFL, ihFP, ihFPR, ihHL, ihHP, ihBS,
    ihBR, ihST, ihLS, ihRS, ihES, ihPL⟩ := ih
  intro p
  constructor
  · intro a p' h
    simp only [parse_function_literal] at h
    split at h
    · next p₁ hep =>
      cases h
      obtain ⟨-, rfl⟩ := expect_peek_false hep
      exact ⟨steps_peek_error p _, trivial⟩
    · next p₁ hep =>
      obtain ⟨-, rfl⟩ := expect_peek_true hep
      split at h
      · exact Option.noConfusion h
      · next e p₂ heq =>
        cases h
        exact ⟨steps_trans (steps_next p) ((ihFP p.next_token).1 _ _ heq).1, trivial⟩
      · next params p₂ heq =>
        have hsP := (ihFP p.next_token).1 _ _ heq
        have sp₂ : Steps p p₂ := steps_trans (steps_next p) hsP.1
        split at h
        · next p₃ hep₂ =>
          cases h
          obtain ⟨-, rfl⟩ := expect_peek_false hep₂
          exact ⟨steps_trans sp₂ (steps_peek_error p₂ _), trivial⟩
        · next p₃ hep₂ =>
          obtain ⟨-, rfl⟩ := expect_peek_true hep₂
          split at h
          · exact Option.noConfusion h
          · next body p₄ hbq =>
            cases h
            have hsB := (ihBS (p₂.next_token)).1 _ _ hbq
            exact ⟨steps_trans sp₂ (steps_trans (steps_next p₂) hsB.1),
              ExprOk.functionLiteral _ _ hsB.2⟩
  · intro wf hf
    simp only [parse_function_literal]
    cases hep : p.expect_peek Token.lparen with
    | mk b p₁ =>
      cases b
      · simp
      · dsimp only
        have hm₁ : p₁.measure < p.measure := expect_peek_true_strict wf (by nofun) hep
        obtain ⟨-, rfl⟩ := expect_peek_true hep
        have hwf₁ : WFStream p.next_token := wfstream_next wf
        have hB := (ihFP p.next_token).2 hwf₁ (by omega)
        cases hin : parse_function_parameters n p.next_token with
        | none => simp only [hin] at hB; simp at hB
        | some v =>
          obtain ⟨r₁, p₂⟩ := v
          cases r₁ with
          | error e => simp
          | ok params =>
            dsimp only
            have hsP := (ihFP p.next_token).1 _ _ hin
            have hwf₂ := (hsP.1.2 hwf₁).2
            have hm₂ : p₂.measure ≤ (p.next_token).measure := hsP.1.1
            cases hep₂ : p₂.expect_peek Token.lbrace with
            | mk b₂ p₃ =>
              cases b₂
              · simp
              · dsimp only
                obtain ⟨-, rfl⟩ := expect_peek_true hep₂
                have hwf₃ := wfstream_next hwf₂
                have hm₃ := measure_next_le p₂
                have hBB := (ihBS (p₂.next_token)).2 hwf₃ (by omega)
                cases hbq : parse_block_statement n p₂.next_token with
                | none => simp only [hbq] at hBB; simp at hBB
                | some v₂ => obtain ⟨body, p₄⟩ := v₂; simp

theorem step_function_parameters (n : Nat) (ih : MasterAt n) :
    FnSpec (fun _ => True) 1 (n + 1) parse_function_parameters := by
  obtain ⟨ihEP, ihPR, ihIL, ihEL, ihELR, ihCD, ihFL, ihFP, ihFPR, ihHL, ihHP, ihBS,
    ihBR, ihST, ihLS, ihRS, ihES, ihPL⟩ := ih
  intro p
  constructor
  · intro a p' h
    simp only [parse_function_parameters] at h
    split at h
    · cases h
      exact ⟨steps_next p, trivial⟩
    · split at h
      · next p₁ hep =>
        cases h
        obtain ⟨-, rfl⟩ := expect_peek_false hep
        exact ⟨steps_peek_error p _, trivial⟩
      · next p₁ hep =>
        obtain ⟨-, rfl⟩ := expect_peek_true hep
        have hs₂ := (ihFPR _ p.next_token).1 a p' h
        exact ⟨steps_trans (steps_next p) hs₂.1, trivial⟩
  · intro wf hf
    simp only [parse_function_parameters]
    split
    · simp
    · cases hep : p.expect_peek (Token.ident "") with
      | mk b p₁ =>
        cases b
        · simp
        · dsimp only
          have hm₁ : p₁.measure < p.measure := expect_peek_true_strict wf (by nofun) hep
          obtain ⟨-, rfl⟩ := expect_peek_true hep
          have hwf₁ : WFStream p.next_token := wfstream_next wf
          exact (ihFPR _ p.next_token).2 hwf₁ (by omega)

theorem step_function_parameters_rest (n : Nat) (ih : MasterAt n) :
    ∀ acc, FnSpec (fun _ => True) 1 (n + 1)
      (fun f p => parse_function_parameters_rest f acc p) := by
  obtain ⟨ihEP, ihPR, ihIL, ihEL, ihELR, ihCD, ihFL, ihFP, ihFPR, ihHL, ihHP, ihBS,
    ihBR, ihST, ihLS, ihRS, ihES, ihPL⟩ := ih
  intro acc p
  constructor
  · intro a p' h
    simp only [parse_function_parameters_rest] at h
    split at h
    · split at h
      · next p₂ hep =>
        cases h
        obtain ⟨-, rfl⟩ := expect_peek_false hep
        exact ⟨steps_trans (steps_next p) (steps_peek_error _ _), trivial⟩
      · next p₂ hep =>
        obtain ⟨-, rfl⟩ := expect_peek_true hep
        have hs₂ := (ihFPR _ p.next_token.next_token).1 a p' h
        exact ⟨steps_trans (steps_next₂ p) hs₂.1, trivial⟩
    · split at h
      · next p₁ hep =>
        cases h
        obtain ⟨-, rfl⟩ := expect_peek_true hep
        exact ⟨steps_next p, trivial⟩
      · next p₁ hep =>
        cases h
        obtain ⟨-, rfl⟩ := expect_peek_false hep
        exact ⟨steps_peek_error p _, trivial⟩
  · intro wf hf
    simp only [parse_function_parameters_rest]
    split
    · next hcomma =>
      have hpne : p.peek_token ≠ Token.eof :=
        peek_ne_eof_of_token_is hcomma (by nofun)
      have hcur : p.current_token ≠ Token.eof := fun hce => hpne (wf.2.2 hce)
      have hlt : (p.next_token).measure < p.measure := measure_next_lt hcur
      have hwf₁ : WFStream p.next_token := wfstream_next wf
      cases hep : p.next_token.expect_peek (Token.ident "") with
      | mk b p₂ =>
        cases b
        · simp
        · dsimp only
          obtain ⟨-, rfl⟩ := expect_peek_true hep
          have hwf₂ : WFStream p.next_token.next_token := wfstream_next hwf₁
          have hm₂ := measure_next_le p.next_token
          exact (ihFPR _ p.next_token.next_token).2 hwf₂ (by omega)
    · cases hep : p.expect_peek Token.rparen with
      | mk b p₁ => cases b <;> simp

theorem step_hash_literal (n : Nat) (ih : MasterAt n) :
    FnSpec (ExceptResOk ExprOk) 4 (n + 1) parse_hash_literal := by
  obtain ⟨ihEP, ihPR, ihIL, ihEL, ihELR, ihCD, ihFL, ihFP, ihFPR, ihHL, ihHP, ihBS,
    ihBR, ihST, ihLS, ihRS, ihES, ihPL⟩ := ih
  intro p
  constructor
  · intro a p' h
    simp only [parse_hash_literal] at h
    have hs := (ihHP [] p).1 a p' h
    exact ⟨hs.1, hs.2 (fun kv hkv => absurd hkv (List.not_mem_nil kv))⟩
  · intro wf hf
    simp only [parse_hash_literal]
    exact (ihHP [] p).2 wf (by omega)

theorem step_hash_pairs (n : Nat) (ih : MasterAt n) :
    ∀ acc, FnSpec (fun r => (∀ kv ∈ acc, ExprOk kv.1 ∧ ExprOk kv.2) →
      ExceptResOk ExprOk r) 3 (n + 1)
      (fun f p => parse_hash_pairs f acc p) := by
  obtain ⟨ihEP, ihPR, ihIL, ihEL, ihELR, ihCD, ihFL, ihFP, ihFPR, ihHL, ihHP, ihBS,
    ihBR, ihST, ihLS, ihRS, ihES, ihPL⟩ := ih
  intro acc p
  constructor
  · intro a p' h
    simp only [parse_hash_pairs] at h
    split at h
    · cases h
      refine ⟨steps_next p, fun hacc => ExprOk.hashMapLiteral _ ?_ ?_⟩
      · exact fun kv hkv => (hacc kv hkv).1
      · exact fun kv hkv => (hacc kv hkv).2
    · split at h
      · exact Option.noConfusion h
      · next e p₂ heq =>
        cases h
        exact ⟨steps_trans (steps_next p) ((ihEP lowestPrecedence _).1 _ _ heq).1,
          fun _ => trivial⟩
      · next k p₂ heq =>
        have hsK := (ihEP lowestPrecedence p.next_token).1 _ _ heq
        have sp₂ : Steps p p₂ := steps_trans (steps_next p) hsK.1
        split at h
        · next p₃ hep =>
          cases h
          obtain ⟨-, rfl⟩ := expect_peek_false hep
          exact ⟨steps_trans sp₂ (steps_peek_error p₂ _), fun _ => trivial⟩
        · next p₃ hep =>
          obtain ⟨-, rfl⟩ := expect_peek_true hep
          have sp₃ : Steps p p₂.next_token.next_token :=
            steps_trans sp₂ (steps_next₂ p₂)
          split at h
          · exact Option.noConfusion h
          · next e p₅ heq₂ =>
            cases h
            exact ⟨steps_trans sp₃ ((ihEP lowestPrecedence _).1 _ _ heq₂).1, fun _ => trivial⟩
          · next v p₅ heq₂ =>
            have hsV := (ihEP lowestPrecedence (p₂.next_token.next_token)).1 _ _ heq₂
            have sp₅ : Steps p p₅ := steps_trans sp₃ hsV.1
            have haccStep : ∀ hacc : (∀ kv ∈ acc, ExprOk kv.1 ∧ ExprOk kv.2),
                (∀ kv ∈ acc ++ [(k, v)], ExprOk kv.1 ∧ ExprOk kv.2) := by
              intro hacc kv hkv
              rcases List.mem_append.mp hkv with hkv' | hkv'
              · exact hacc kv hkv'
              · rcases List.mem_singleton.mp hkv' with rfl
                exact ⟨hsK.2, hsV.2⟩
            split at h
            · have hs₂ := (ihHP (acc ++ [(k, v)]) p₅).1 a p' h
              exact ⟨steps_trans sp₅ hs₂.1, fun hacc => hs₂.2 (haccStep hacc)⟩
            · split at h
              · next p₆ hep₂ =>
                obtain ⟨-, rfl⟩ := expect_peek_true hep₂
                have hs₂ := (ihHP (acc ++ [(k, v)]) p₅.next_token).1 a p' h
                exact ⟨steps_trans sp₅ (steps_trans (steps_next p₅) hs₂.1),
                  fun hacc => hs₂.2 (haccStep hacc)⟩
              · next p₆ hep₂ =>
                cases h
                obtain ⟨-, rfl⟩ := expect_peek_false hep₂
                exact ⟨steps_trans sp₅ (steps_peek_error p₅ _), fun _ => trivial⟩
  · intro wf hf
    simp only [parse_hash_pairs]
    split
    · simp
    · by_cases hce : p.current_token = Token.eof
      · rw [next_token_of_eof wf hce]
        rw [expr_parse_at_eof (by omega) lowestPrecedence p hce]
        simp
      · have hlt : (p.next_token).measure < p.measure := measure_next_lt hce
        have hwf₁ : WFStream p.next_token := wfstream_next wf
        have hB := (ihEP lowestPrecedence p.next_token).2 hwf₁ (by omega)
        cases hin : Expression.parse n lowestPrecedence p.next_token with
        | none => simp only [hin] at hB; simp at hB
        | some v₀ =>
          obtain ⟨r₁, p₂⟩ := v₀
          cases r₁ with
          | error e => simp
          | ok k =>
            dsimp only
            have hsK := (ihEP lowestPrecedence p.next_token).1 _ _ hin
            have hwf₂ := (hsK.1.2 hwf₁).2
            have hm₂ : p₂.measure ≤ (p.next_token).measure := hsK.1.1
            cases hep : p₂.expect_peek Token.colon with
            | mk b p₃ =>
              cases b
              · simp
              · dsimp only
                obtain ⟨-, rfl⟩ := expect_peek_true hep
                have hwf₃ : WFStream p₂.next_token.next_token :=
                  wfstream_next (wfstream_next hwf₂)
                have hm₃ : (p₂.next_token.next_token).measure ≤ p₂.measure :=
                  le_trans (measure_next_le _) (measure_next_le _)
                have hB₂ := (ihEP lowestPrecedence (p₂.next_token.next_token)).2 hwf₃
                  (by omega)
                cases hin₂ : Expression.parse n lowestPrecedence p₂.next_token.next_token with
                | none => simp only [hin₂] at hB₂; simp at hB₂
                | some v₁ =>
                  obtain ⟨r₂, p₅⟩ := v₁
                  cases r₂ with
                  | error e => simp
                  | ok v =>
                    dsimp only
                    have hsV := (ihEP lowestPrecedence (p₂.next_token.next_token)).1 _ _ hin₂
                    have hwf₅ := (hsV.1.2 hwf₃).2
                    have hm₅ : p₅.measure ≤ (p₂.next_token.next_token).measure := hsV.1.1
                    split
                    · exact (ihHP (acc ++ [(k, v)]) p₅).2 hwf₅ (by omega)
                    · cases hep₂ : p₅.expect_peek Token.comma with
                      | mk b₂ p₆ =>
                        cases b₂
                        · simp
                        · dsimp only
                          obtain ⟨-, rfl⟩ := expect_peek_true hep₂
                          have hwf₆ := wfstream_next hwf₅
                          have hm₆ := measure_next_le p₅
                          exact (ihHP (acc ++ [(k, v)]) p₅.next_token).2 hwf₆ (by omega)

theorem step_block_statement (n : Nat) (ih : MasterAt n) :
    FnSpec BlockOk 2 (n + 1) parse_block_statement := by
  obtain ⟨ihEP, ihPR, ihIL, ihEL, ihELR, ihCD, ihFL, ihFP, ihFPR, ihHL, ihHP, ihBS,
    ihBR, ihST, ihLS, ihRS, ihES, ihPL⟩ := ih
  intro p
  constructor
  · intro a p' h
    simp only [parse_block_statement] at h
    have hs := (ihBR [] p.next_token).1 a p' h
    exact ⟨steps_trans (steps_next p) hs.1,
      hs.2 (fun s hs' => absurd hs' (List.not_mem_nil s))⟩
  · intro wf hf
    simp only [parse_block_statement]
    by_cases hce : p.current_token = Token.eof
    · rw [next_token_of_eof wf hce]
      obtain ⟨m, rfl⟩ : ∃ m, n = m + 1 := ⟨n - 1, by omega⟩
      have h1 : p.current_token_is Token.rbrace = false := by
        simp [Parser.current_token_is, hce]
      have h2 : p.current_token_is Token.eof = true := (current_is_eof_iff p).mpr hce
      simp [parse_block_rest, h1, h2]
    · have hlt : (p.next_token).measure < p.measure := measure_next_lt hce
      exact (ihBR [] p.next_token).2 (wfstream_next wf) (by omega)

theorem step_block_rest (n : Nat) (ih : MasterAt n) :
    ∀ acc, FnSpec (fun b => (∀ s ∈ acc, StmtOk s) → BlockOk b) 9 (n + 1)
      (fun f p => parse_block_rest f acc p) := by
  obtain ⟨ihEP, ihPR, ihIL, ihEL, ihELR, ihCD, ihFL, ihFP, ihFPR, ihHL, ihHP, ihBS,
    ihBR, ihST, ihLS, ihRS, ihES, ihPL⟩ := ih
  intro acc p
  constructor
  · intro a p' h
    simp only [parse_block_rest] at h
    split at h
    · cases h
      exact ⟨steps_refl _, fun hacc => BlockOk.mk acc hacc⟩
    · split at h
      · cases h
        exact ⟨steps_refl _, fun hacc => BlockOk.mk acc hacc⟩
      · split at h
        · exact Option.noConfusion h
        · next st p₁ heq =>
          have hsS := (ihST p).1 _ _ heq
          have hs₂ := (ihBR _ p₁.next_token).1 a p' h
          refine ⟨steps_trans hsS.1 (steps_trans (steps_next p₁) hs₂.1),
            fun hacc => hs₂.2 ?_⟩
          cases st with
          | none => exact hacc
          | some s =>
            intro x hx
            rcases List.mem_append.mp hx with hx' | hx'
            · exact hacc x hx'
            · rcases List.mem_singleton.mp hx' with rfl
              exact hsS.2
  · intro wf hf
    simp only [parse_block_rest]
    split
    · simp
    · split
      · simp
      · next h1 h2 =>
        have hcur : p.current_token ≠ Token.eof := fun hce =>
          h2 ((current_is_eof_iff p).mpr hce)
        have hB := (ihST p).2 wf (by omega)
        cases hin : Parser.parse_statement n p with
        | none => simp only [hin] at hB; simp at hB
        | some v =>
          obtain ⟨st, p₁⟩ := v
          dsimp only
          have hsS := (ihST p).1 _ _ hin
          have hwf₁ := (hsS.1.2 wf).2
          have hm : (p₁.next_token).measure < p.measure := by
            rcases (hsS.1.2 wf).1 with e | l
            · have hc₁ : p₁.current_token = p.current_token :=
                congrArg (fun x => x.2.1) e
              have hlt := measure_next_lt (p := p₁) (fun hce => hcur (hc₁.symm.trans hce))
              exact lt_of_lt_of_le hlt (le_of_eq (measure_congr e))
            · exact lt_of_le_of_lt (measure_next_le p₁) l
          exact (ihBR _ p₁.next_token).2 (wfstream_next hwf₁) (by omega)

theorem steps_opt_semi (p : Parser) :
    Steps p (if p.peek_token_is Token.semicolon then p.next_token else p) := by
  split
  · exact steps_next p
  · exact steps_refl p

theorem step_statement (n : Nat) (ih : MasterAt n) :
    FnSpec (OptResOk StmtOk) 8 (n + 1) Parser.parse_statement := by
  obtain ⟨ihEP, ihPR, ihIL, ihEL, ihELR, ihCD, ihFL, ihFP, ihFPR, ihHL, ihHP, ihBS,
    ihBR, ihST, ihLS, ihRS, ihES, ihPL⟩ := ih
  intro p
  constructor
  · intro a p' h
    simp only [Parser.parse_statement] at h
    split at h
    · split at h
      · exact Option.noConfusion h
      · next r p₁ heq =>
        cases h
        have hsL := (ihLS p).1 _ _ heq
        refine ⟨hsL.1, ?_⟩
        cases r with
        | none => exact trivial
        | some nv => exact hsL.2
    · split at h
      · exact Option.noConfusion h
      · next r p₁ heq =>
        cases h
        have hsR := (ihRS p).1 _ _ heq
        refine ⟨hsR.1, ?_⟩
        cases r with
        | none => exact trivial
        | some rv => exact StmtOk.ret _ hsR.2
    · split at h
      · exact Option.noConfusion h
      · next r p₁ heq =>
        cases h
        have hsE := (ihES p).1 _ _ heq
        refine ⟨hsE.1, ?_⟩
        cases r with
        | none => exact trivial
        | some e => exact StmtOk.expr _ hsE.2
  · intro wf hf
    simp only [Parser.parse_statement]
    split
    · have hB := (ihLS p).2 wf (by omega)
      cases hin : Parser.parse_let_statement n p with
      | none => simp only [hin] at hB; simp at hB
      | some v => obtain ⟨r, p₁⟩ := v; simp
    · have hB := (ihRS p).2 wf (by omega)
      cases hin : Parser.parse_return_statement n p with
      | none => simp only [hin] at hB; simp at hB
      | some v => obtain ⟨r, p₁⟩ := v; simp
    · have hB := (ihES p).2 wf (by omega)
      cases hin : Parser.parse_expression_statement n p with
      | none => simp only [hin] at hB; simp at hB
      | some v => obtain ⟨r, p₁⟩ := v; simp

theorem step_let_statement (n : Nat) (ih : MasterAt n) :
    FnSpec (OptResOk (fun nv => StmtOk (Statement.letStmt nv.1 nv.2))) 7 (n + 1)
      Parser.parse_let_statement := by
  obtain ⟨ihEP, ihPR, ihIL, ihEL, ihELR, ihCD, ihFL, ihFP, ihFPR, ihHL, ihHP, ihBS,
    ihBR, ihST, ihLS, ihRS, ihES, ihPL⟩ := ih
  intro p
  constructor
  · intro a p' h
    simp only [Parser.parse_let_statement] at h
    split at h
    · next p₁ hep =>
      cases h
      obtain ⟨-, rfl⟩ := expect_peek_false hep
      exact ⟨steps_peek_error p _, trivial⟩
    · next p₁ hep =>
      have hpt := (expect_peek_true hep).1
      obtain ⟨-, rfl⟩ := expect_peek_true hep
      obtain ⟨v, hv⟩ : ∃ v, p.peek_token = Token.ident v := by
        rcases peek_token_is_spec p _ hpt with ⟨⟨u, hu⟩, -⟩ | ⟨-, ⟨m, hm⟩⟩ | heq
        · exact ⟨u, hu⟩
        · exact absurd hm (by nofun)
        · exact ⟨"", heq⟩
      split at h
      · next p₂ hep₂ =>
        cases h
        obtain ⟨-, rfl⟩ := expect_peek_false hep₂
        exact ⟨steps_trans (steps_next p) (steps_peek_error _ _), trivial⟩
      · next p₂ hep₂ =>
        obtain ⟨-, rfl⟩ := expect_peek_true hep₂
        split at h
        · exact Option.noConfusion h
        · next s p₄ heq =>
          cases h
          exact ⟨steps_trans (steps_next p) (steps_trans (steps_next₂ _)
            (steps_trans ((ihEP lowestPrecedence _).1 _ _ heq).1 (steps_push_error _ _))),
            trivial⟩
        · next value p₄ heq =>
          cases h
          have hsE := (ihEP lowestPrecedence (p.next_token.next_token.next_token)).1 _ _ heq
          refine ⟨steps_trans (steps_next p) (steps_trans (steps_next₂ _)
            (steps_trans hsE.1 (steps_opt_semi p₄))), ?_⟩
          have hcur : p.next_token.current_token = Token.ident v := hv
          rw [hcur]
          cases value with
          | functionLiteral ps body nm =>
            dsimp only
            cases hsE.2 with
            | functionLiteral ps body hb => exact StmtOk.letFn ⟨Token.ident v, v⟩ ps body hb
          | identifier i =>
            exact StmtOk.letPlain _ _ hsE.2 (fun ps b nm hc => nomatch hc)
          | primitive pr =>
            exact StmtOk.letPlain _ _ hsE.2 (fun ps b nm hc => nomatch hc)
          | prefixExpr t r =>
            exact StmtOk.letPlain _ _ hsE.2 (fun ps b nm hc => nomatch hc)
          | infixExpr t l r =>
            exact StmtOk.letPlain _ _ hsE.2 (fun ps b nm hc => nomatch hc)
          | conditional c cons alt =>
            exact StmtOk.letPlain _ _ hsE.2 (fun ps b nm hc => nomatch hc)
          | functionCall f args =>
            exact StmtOk.letPlain _ _ hsE.2 (fun ps b nm hc => nomatch hc)
          | arrayLiteral es =>
            exact StmtOk.letPlain _ _ hsE.2 (fun ps b nm hc => nomatch hc)
          | indexExpression l i =>
            exact StmtOk.letPlain _ _ hsE.2 (fun ps b nm hc => nomatch hc)
          | hashMapLiteral prs =>
            exact StmtOk.letPlain _ _ hsE.2 (fun ps b nm hc => nomatch hc)
  · intro wf hf
    simp only [Parser.parse_let_statement]
    cases hep : p.expect_peek (Token.ident "") with
    | mk b p₁ =>
      cases b
      · simp
      · dsimp only
        have hm₁ : p₁.measure < p.measure := expect_peek_true_strict wf (by nofun) hep
        obtain ⟨-, rfl⟩ := expect_peek_true hep
        have hwf₁ := wfstream_next wf
        cases hep₂ : p.next_token.expect_peek Token.assign with
        | mk b₂ p₂ =>
          cases b₂
          · simp
          · dsimp only
            obtain ⟨-, rfl⟩ := expect_peek_true hep₂
            have hwf₂ := wfstream_next hwf₁
            have hm₂ := measure_next_le p.next_token
            have hwf₃ := wfstream_next hwf₂
            have hm₃ := measure_next_le p.next_token.next_token
            have hB := (ihEP lowestPrecedence (p.next_token.next_token.next_token)).2 hwf₃
              (by omega)
            cases hin : Expression.parse n lowestPrecedence
                p.next_token.next_token.next_token with
            | none => simp only [hin] at hB; simp at hB
            | some v₀ =>
              obtain ⟨r, p₄⟩ := v₀
              cases r with
              | error s => simp
              | ok value => simp

theorem step_return_statement (n : Nat) (ih : MasterAt n) :
    FnSpec (OptResOk ExprOk) 7 (n + 1) Parser.parse_return_statement := by
  obtain ⟨ihEP, ihPR, ihIL, ihEL, ihELR, ihCD, ihFL, ihFP, ihFPR, ihHL, ihHP, ihBS,
    ihBR, ihST, ihLS, ihRS, ihES, ihPL⟩ := ih
  intro p
  constructor
  · intro a p' h
    simp only [Parser.parse_return_statement] at h
    split at h
    · exact Option.noConfusion h
    · next s p₂ heq =>
      cases h
      exact ⟨steps_trans (steps_next p)
        (steps_trans ((ihEP lowestPrecedence _).1 _ _ heq).1 (steps_push_error _ _)),
        trivial⟩
    · next rv p₂ heq =>
      cases h
      have hsE := (ihEP lowestPrecedence p.next_token).1 _ _ heq
      exact ⟨steps_trans (steps_next p) (steps_trans hsE.1 (steps_opt_semi p₂)), hsE.2⟩
  · intro wf hf
    simp only [Parser.parse_return_statement]
    have hwf₁ := wfstream_next wf
    have hm₁ := measure_next_le p
    have hB := (ihEP lowestPrecedence p.next_token).2 hwf₁ (by omega)
    cases hin : Expression.parse n lowestPrecedence p.next_token with
    | none => simp only [hin] at hB; simp at hB
    | some v₀ =>
      obtain ⟨r, p₂⟩ := v₀
      cases r with
      | error s => simp
      | ok rv => simp

theorem step_expression_statement (n : Nat) (ih : MasterAt n) :
    FnSpec (OptResOk ExprOk) 7 (n + 1) Parser.parse_expression_statement := by
  obtain ⟨ihEP, ihPR, ihIL, ihEL, ihELR, ihCD, ihFL, ihFP, ihFPR, ihHL, ihHP, ihBS,
    ihBR, ihST, ihLS, ihRS, ihES, ihPL⟩ := ih
  intro p
  constructor
  · intro a p' h
    simp only [Parser.parse_expression_statement] at h
    split at h
    · exact Option.noConfusion h
    · next r p₁ heq =>
      have hsE := (ihEP lowestPrecedence p).1 _ _ heq
      split at h
      · next e0 =>
        cases h
        exact ⟨steps_trans hsE.1 (steps_opt_semi p₁), hsE.2⟩
      · next s0 =>
        cases h
        exact ⟨steps_trans hsE.1 (steps_trans (steps_opt_semi p₁) (steps_push_error _ _)),
          trivial⟩
  · intro wf hf
    simp only [Parser.parse_expression_statement]
    have hB := (ihEP lowestPrecedence p).2 wf (by omega)
    cases hin : Expression.parse n lowestPrecedence p with
    | none => simp only [hin] at hB; simp at hB
    | some v₀ =>
      obtain ⟨r, p₁⟩ := v₀
      cases r <;> simp

theorem step_program_loop (n : Nat) (ih : MasterAt n) :
    ∀ acc, FnSpec (fun sts => (∀ s ∈ acc, StmtOk s) → ∀ s ∈ sts, StmtOk s) 9 (n + 1)
      (fun f p => Parser.parse_program_loop f p acc) := by
  obtain ⟨ihEP, ihPR, ihIL, ihEL, ihELR, ihCD, ihFL, ihFP, ihFPR, ihHL, ihHP, ihBS,
    ihBR, ihST, ihLS, ihRS, ihES, ihPL⟩ := ih
  intro acc p
  constructor
  · intro a p' h
    simp only [Parser.parse_program_loop] at h
    split at h
    · cases h
      exact ⟨steps_refl _, fun hacc => hacc⟩
    · split at h
      · exact Option.noConfusion h
      · next st p₁ heq =>
        have hsS := (ihST p).1 _ _ heq
        have hs₂ := (ihPL _ p₁.next_token).1 a p' h
        refine ⟨steps_trans hsS.1 (steps_trans (steps_next p₁) hs₂.1),
          fun hacc => hs₂.2 ?_⟩
        cases st with
        | none => exact hacc
        | some s =>
          intro x hx
          rcases List.mem_append.mp hx with hx' | hx'
          · exact hacc x hx'
          · rcases List.mem_singleton.mp hx' with rfl
            exact hsS.2
  · intro wf hf
    simp only [Parser.parse_program_loop]
    split
    · simp
    · next hne =>
      have hB := (ihST p).2 wf (by omega)
      cases hin : Parser.parse_statement n p with
      | none => simp only [hin] at hB; simp at hB
      | some v =>
        obtain ⟨st, p₁⟩ := v
        dsimp only
        have hsS := (ihST p).1 _ _ hin
        have hwf₁ := (hsS.1.2 wf).2
        have hm : (p₁.next_token).measure < p.measure := by
          rcases (hsS.1.2 wf).1 with e | l
          · have hc₁ : p₁.current_token = p.current_token :=
              congrArg (fun x => x.2.1) e
            have hlt := measure_next_lt (p := p₁) (fun hce => hne (hc₁.symm.trans hce))
            exact lt_of_lt_of_le hlt (le_of_eq (measure_congr e))
          · exact lt_of_le_of_lt (measure_next_le p₁) l
        exact (ihPL _ p₁.next_token).2 (wfstream_next hwf₁) (by omega)

theorem master_succ (n : Nat) (ih : MasterAt n) : MasterAt (n + 1) :=
  ⟨step_expr_parse n ih, step_prefix_rule n ih, step_infix_loop n ih,
    step_expression_list n ih, step_expression_list_rest n ih, step_conditional n ih,
    step_function_literal n ih, step_function_parameters n ih,
    step_function_parameters_rest n ih, step_hash_literal n ih, step_hash_pairs n ih,
    step_block_statement n ih, step_block_rest n ih, step_statement n ih,
    step_let_statement n ih, step_return_statement n ih, step_expression_statement n ih,
    step_program_loop n ih⟩

/-- The master invariant of the fueled parser, for every fuel value. -/
theorem parser_master : ∀ fuel, MasterAt fuel := by
  intro fuel
  induction fuel with
  | zero => exact master_zero
  | succ n ihn => exact master_succ n ihn

theorem measure_new_le (ts : List Token) : (Parser.new ts).measure ≤ ts.length + 2 := by
  have h1 := measure_next_le (Parser.mk ts [] (Token.illegal "") (Token.illegal ""))
  have h2 := measure_next_le
    (Parser.next_token (Parser.mk ts [] (Token.illegal "") (Token.illegal "")))
  have h0 : (Parser.mk ts [] (Token.illegal "") (Token.illegal "")).measure
      = ts.length + 2 := by
    simp [Parser.measure, tokWeight]
  unfold Parser.new
  omega

theorem wfstream_new {ts : List Token} (h : Token.eof ∉ ts) :
    WFStream (Parser.new ts) := by
  have h0 : WFStream (Parser.mk ts [] (Token.illegal "") (Token.illegal "")) := by
    refine ⟨h, fun hpe => ?_, fun hce => ?_⟩
    · simp at hpe
    · simp at hce
  exact wfstream_next (wfstream_next h0)

/-- Over a well-formed token stream, `parse_program` runs to completion
with the linear fuel `fuelFor`. -/
theorem parse_program_total (ts : List Token) (h : Token.eof ∉ ts) :
    (Parser.parse_program (fuelFor ts) (Parser.new ts)).isSome := by
  obtain ⟨-, -, -, -, -, -, -, -, -, -, -, -, -, -, -, -, -, hPL⟩ :=
    parser_master (fuelFor ts)
  have harith : 16 * (Parser.new ts).measure + 9 ≤ fuelFor ts := by
    have := measure_new_le ts
    unfold fuelFor
    omega
  have hB := (hPL [] (Parser.new ts)).2 (wfstream_new h) harith
  unfold Parser.parse_program
  cases hloop : Parser.parse_program_loop (fuelFor ts) (Parser.new ts) [] with
  | none => simp only [hloop] at hB; simp at hB
  | some v => obtain ⟨sts, p₁⟩ := v; simp

/-- All statements of a completed `parse_program_loop` run obey the
function-literal naming discipline `StmtOk`. -/
theorem parse_program_loop_names (fuel : Nat) (p : Parser) (sts : List Statement)
    (p' : Parser) (h : Parser.parse_program_loop fuel p [] = some (sts, p')) :
    ∀ s ∈ sts, StmtOk s := by
  obtain ⟨-, -, -, -, -, -, -, -, -, -, -, -, -, -, -, -, -, hPL⟩ := parser_master fuel
  exact ((hPL [] p).1 _ _ h).2 (fun s hs => absurd hs (List.not_mem_nil s))

theorem peek_token_is_ident_iff (p : Parser) (s : String) :
    p.peek_token_is (Token.ident s) = true ↔ ∃ u, p.peek_token = Token.ident u := by
  unfold Parser.peek_token_is
  cases hpk : p.peek_token <;> simp

theorem peek_token_is_int_iff (p : Parser) (m : Int) :
    p.peek_token_is (Token.int m) = true ↔ ∃ k, p.peek_token = Token.int k := by
  unfold Parser.peek_token_is
  cases hpk : p.peek_token <;> simp

theorem current_token_is_ident_iff (p : Parser) (s : String) :
    p.current_token_is (Token.ident s) = true ↔ ∃ u, p.current_token = Token.ident u := by
  unfold Parser.current_token_is
  cases hc : p.current_token <;> simp

theorem current_token_is_int_iff (p : Parser) (m : Int) :
    p.current_token_is (Token.int m) = true ↔ ∃ k, p.current_token = Token.int k := by
  unfold Parser.current_token_is
  cases hc : p.current_token <;> simp

theorem peek_token_is_other_iff (p : Parser) (t : Token)
    (h1 : ∀ s, t ≠ Token.ident s) (h2 : ∀ m, t ≠ Token.int m) :
    (p.peek_token_is t = true ↔ p.peek_token = t) := by
  unfold Parser.peek_token_is
  cases hpk : p.peek_token <;> cases t <;> simp_all

theorem current_token_is_other_iff (p : Parser) (t : Token)
    (h1 : ∀ s, t ≠ Token.ident s) (h2 : ∀ m, t ≠ Token.int m) :
    (p.current_token_is t = true ↔ p.current_token = t) := by
  unfold Parser.current_token_is
  cases hc : p.current_token <;> cases t <;> simp_all

/-- C1 (code-bug evidence): on the REPL line `let x 5;` the parser's
error list is non-empty and every message is rendered — yet the shell
STILL invokes evaluation: `repl()` calls `eval_program(program)`
unconditionally (src/src/bin/repl.rs:46, no `else` after the error
branch at lines 42-44), where the claim and the spec (§6, §7) require
that a line with parse errors must not be evaluated. -/
theorem repl_evaluates_despite_parse_errors :
    (repl_line tokensLetX5).rendered_errors ≠ [] ∧
    (repl_line tokensLetX5).eval_invoked = true := by
  constructor
  · decide
  · rfl

/-- C2: parsing never aborts on a malformed statement — over every
well-formed token stream `parse_program` runs to completion — and on
`let x 5; let = 10; let 838383;` a single invocation accumulates four
diagnostics (pairwise distinct, hence at least three distinct messages)
while still parsing the rest of the input (three expression statements
survive the recovery). -/
theorem parse_error_accumulation :
    (∀ ts : List Token, Token.eof ∉ ts →
      (Parser.parse_program (fuelFor ts) (Parser.new ts)).isSome) ∧
    (parse_errors tokensThreeBadLets).length = 4 ∧
    (parse_errors tokensThreeBadLets).Nodup ∧
    (parse tokensThreeBadLets).statements.length = 3 := by
  refine ⟨fun ts h => parse_program_total ts h, rfl, ?_, rfl⟩
  decide

theorem parse_error_accumulation_witness :
    Token.eof ∉ tokensThreeBadLets ∧
    (Parser.parse_program (fuelFor tokensThreeBadLets)
      (Parser.new tokensThreeBadLets)).isSome :=
  ⟨by decide, parse_error_accumulation.1 tokensThreeBadLets (by decide)⟩

/-- C3 counterexample: the streams of `let x 5;` and `5;` produce EQUAL
`parse` results while their accumulated error lists differ — so the
value returned by the public entry point `parse`
(src/src/parser/mod.rs:230-234) cannot contain the error list: `parse`
returns only the `Program` and drops the `Parser` holding the errors. -/
theorem parse_does_not_return_errors :
    parse tokensLetX5 = parse tokensFive ∧
    parse_errors tokensLetX5 ≠ parse_errors tokensFive := by
  constructor
  · rfl
  · decide

/-- C3 amended: the parser's public entry point returns only the parsed
`Program`; the ordered error-message list accumulated during parsing is
held in the final `Parser`'s public `errors` field (read separately, as
the REPL does), and is not part of `parse`'s return value. -/
theorem parse_returns_program_only :
    ∀ ts : List Token, Token.eof ∉ ts →
      ∃ p₁ : Parser,
        Parser.parse_program (fuelFor ts) (Parser.new ts) = some (parse ts, p₁) ∧
        parse_errors ts = p₁.errors := by
  intro ts h
  have hs := parse_program_total ts h
  cases hpp : Parser.parse_program (fuelFor ts) (Parser.new ts) with
  | none => rw [hpp] at hs; simp at hs
  | some v =>
    obtain ⟨prog, p₁⟩ := v
    refine ⟨p₁, ?_, ?_⟩
    · unfold parse
      rw [hpp]
    · unfold parse_errors
      rw [hpp]

theorem parse_returns_program_only_witness :
    ∃ p₁ : Parser,
      Parser.parse_program (fuelFor tokensFive) (Parser.new tokensFive) =
        some (parse tokensFive, p₁) ∧ parse_errors tokensFive = p₁.errors :=
  parse_returns_program_only tokensFive (by decide)

/-- C4: a failed expected-token check during `let` parsing — missing
identifier after `let`, or missing `=` after the identifier — records
exactly one diagnostic of the form
"Expected next token to be X, got Y instead" (X the expected token's
display, Y the actual peek token's display), produces no statement for
that `let` (`parse_statement` yields `none`), and the program loop
continues with the next statement. -/
theorem expect_peek_failure_behavior :
    (∀ (fuel : Nat) (p : Parser) (acc : List Statement),
      p.current_token = Token.letT →
      p.peek_token_is (Token.ident "") = false →
      (Parser.parse_statement (fuel + 2) p =
          some (none, p.peek_error (Token.ident "")) ∧
        (p.peek_error (Token.ident "")).errors = p.errors ++
          ["Expected next token to be " ++ (Token.ident "").display ++ ", got "
            ++ p.peek_token.display ++ " instead"] ∧
        Parser.parse_program_loop (fuel + 3) p acc =
          Parser.parse_program_loop (fuel + 2)
            (p.peek_error (Token.ident "")).next_token acc)) ∧
    (∀ (fuel : Nat) (p : Parser) (acc : List Statement),
      p.current_token = Token.letT →
      p.peek_token_is (Token.ident "") = true →
      p.next_token.peek_token_is Token.assign = false →
      (Parser.parse_statement (fuel + 2) p =
          some (none, p.next_token.peek_error Token.assign) ∧
        (p.next_token.peek_error Token.assign).errors = p.errors ++
          ["Expected next token to be " ++ Token.assign.display ++ ", got "
            ++ p.next_token.peek_token.display ++ " instead"] ∧
        Parser.parse_program_loop (fuel + 3) p acc =
          Parser.parse_program_loop (fuel + 2)
            (p.next_token.peek_error Token.assign).next_token acc)) := by
  constructor
  · intro fuel p acc hc hpk
    have h1 : Parser.parse_statement (fuel + 2) p =
        some (none, p.peek_error (Token.ident "")) := by
      simp [Parser.parse_statement, hc, Parser.parse_let_statement,
        Parser.expect_peek, hpk]
    refine ⟨h1, ?_, ?_⟩
    · simp [Parser.peek_error]
    · conv in Parser.parse_program_loop (fuel + 3) p acc =>
        rw [Parser.parse_program_loop]
      rw [hc]
      simp [h1]
  · intro fuel p acc hc hpk hpk2
    have h1 : Parser.parse_statement (fuel + 2) p =
        some (none, p.next_token.peek_error Token.assign) := by
      simp [Parser.parse_statement, hc, Parser.parse_let_statement,
        Parser.expect_peek, hpk, hpk2]
    refine ⟨h1, ?_, ?_⟩
    · simp [Parser.peek_error, Parser.next_token]
    · conv in Parser.parse_program_loop (fuel + 3) p acc =>
        rw [Parser.parse_program_loop]
      rw [hc]
      simp [h1]

theorem expect_peek_failure_witness :
    Parser.parse_statement 5 stateLetAssign =
      some (none, stateLetAssign.peek_error (Token.ident "")) ∧
    Parser.parse_statement 5 stateLetX5 =
      some (none, stateLetX5.next_token.peek_error Token.assign) :=
  ⟨(expect_peek_failure_behavior.1 3 stateLetAssign [] rfl (by decide)).1,
   (expect_peek_failure_behavior.2 3 stateLetX5 [] rfl (by decide) (by decide)).1⟩

/-- C5: every function literal in a parsed program has `name = None`
unless it is the direct right-hand side of a `let` binding, in which
case the parser back-patches the bound identifier's name into it (the
discipline `StmtOk`/`ExprOk`); concretely, `let myFunction = fn(){};`
yields a FunctionLiteral named `Some "myFunction"` while the bare
`fn(){};` yields one named `None`. -/
theorem function_literal_naming :
    (∀ (fuel : Nat) (p : Parser) (sts : List Statement) (p' : Parser),
      Parser.parse_program_loop fuel p [] = some (sts, p') →
      ∀ s ∈ sts, StmtOk s) ∧
    parse tokensLetMyFunction = { statements := [Statement.letStmt
      { token := Token.ident "myFunction", value := "myFunction" }
      (Expression.functionLiteral [] (BlockStatement.mk []) (some "myFunction"))] } ∧
    parse tokensBareFn = { statements := [Statement.exprStmt
      (Expression.functionLiteral [] (BlockStatement.mk []) none)] } :=
  ⟨parse_program_loop_names, rfl, rfl⟩

theorem function_literal_naming_witness :
    StmtOk (Statement.exprStmt
      (Expression.functionLiteral [] (BlockStatement.mk []) none)) :=
  function_literal_naming.1 (fuelFor tokensBareFn) (Parser.new tokensBareFn) _ _ rfl
    _ (List.mem_singleton.mpr rfl)

/-- C6: `let x = 5;` parses to exactly one statement — a Let binding the
identifier `x` to the Integer literal `5` — and `return true;` to
exactly one Return statement wrapping the Boolean literal `true`; both
parses record no error. -/
theorem let_return_literal_shapes :
    parse tokensLetEq5 = { statements := [Statement.letStmt
      { token := Token.ident "x", value := "x" }
      (Expression.primitive (Primitive.integerLiteral 5))] } ∧
    parse_errors tokensLetEq5 = [] ∧
    parse tokensReturnTrue = { statements := [Statement.returnStmt
      (Expression.primitive (Primitive.booleanLiteral true))] } ∧
    parse_errors tokensReturnTrue = [] :=
  ⟨rfl, rfl, rfl, rfl⟩

theorem expect_peek_of_true {p : Parser} {t : Token}
    (h : p.peek_token_is t = true) : p.expect_peek t = (true, p.next_token) := by
  simp [Parser.expect_peek, h]

/-- C7: the trailing semicolon of a `let` or a `return` statement is
optional, for EVERY such statement regardless of its value expression:
whenever the statement's value has been parsed to any expression
(`Expression.parse` succeeding in state `p₄`), the parser produces the
same statement whether or not the next token is a semicolon — the
semicolon test only selects the final position — it consumes the
semicolon exactly when one follows, and it records no error in either
case (the final error list equals `p₄`'s).  The last component
instantiates this across distinct streams: for every identifier and
integer literal, parsing with and without the trailing semicolon yields
the same statement with no error, and a present semicolon is consumed so
a following statement still parses. -/
theorem trailing_semicolon_optional :
    (∀ (fuel : Nat) (p : Parser) (value : Expression) (p₄ : Parser),
      p.peek_token_is (Token.ident "") = true →
      p.next_token.peek_token_is Token.assign = true →
      Expression.parse fuel lowestPrecedence p.next_token.next_token.next_token =
        some (Except.ok value, p₄) →
      ∃ (nm : Identifier) (v₁ : Expression),
        Parser.parse_let_statement (fuel + 1) p = some (some (nm, v₁),
          if p₄.peek_token_is Token.semicolon then p₄.next_token else p₄) ∧
        (if p₄.peek_token_is Token.semicolon then p₄.next_token else p₄).errors =
          p₄.errors) ∧
    (∀ (fuel : Nat) (p : Parser) (rv : Expression) (p₂ : Parser),
      Expression.parse fuel lowestPrecedence p.next_token =
        some (Except.ok rv, p₂) →
      Parser.parse_return_statement (fuel + 1) p = some (some rv,
        if p₂.peek_token_is Token.semicolon then p₂.next_token else p₂) ∧
      (if p₂.peek_token_is Token.semicolon then p₂.next_token else p₂).errors =
        p₂.errors) ∧
    (∀ (x : String) (n : Int) (y : String) (k : Int),
      parse [Token.letT, Token.ident x, Token.assign, Token.int n, Token.semicolon] =
        { statements := [Statement.letStmt { token := Token.ident x, value := x }
          (Expression.primitive (Primitive.integerLiteral n))] } ∧
      parse [Token.letT, Token.ident x, Token.assign, Token.int n] =
        { statements := [Statement.letStmt { token := Token.ident x, value := x }
          (Expression.primitive (Primitive.integerLiteral n))] } ∧
      parse_errors [Token.letT, Token.ident x, Token.assign, Token.int n,
        Token.semicolon] = [] ∧
      parse_errors [Token.letT, Token.ident x, Token.assign, Token.int n] = [] ∧
      parse [Token.returnT, Token.int n, Token.semicolon] =
        { statements := [Statement.returnStmt
          (Expression.primitive (Primitive.integerLiteral n))] } ∧
      parse [Token.returnT, Token.int n] =
        { statements := [Statement.returnStmt
          (Expression.primitive (Primitive.integerLiteral n))] } ∧
      parse_errors [Token.returnT, Token.int n, Token.semicolon] = [] ∧
      parse_errors [Token.returnT, Token.int n] = [] ∧
      parse [Token.letT, Token.ident x, Token.assign, Token.int n, Token.semicolon,
        Token.letT, Token.ident y, Token.assign, Token.int k] =
        { statements := [Statement.letStmt { token := Token.ident x, value := x }
            (Expression.primitive (Primitive.integerLiteral n)),
          Statement.letStmt { token := Token.ident y, value := y }
            (Expression.primitive (Primitive.integerLiteral k))] }) := by
  refine ⟨?_, ?_, ?_⟩
  · intro fuel p value p₄ h1 h2 hE
    simp only [Parser.parse_let_statement, expect_peek_of_true h1,
      expect_peek_of_true h2, hE]
    refine ⟨_, _, rfl, ?_⟩
    split <;> rfl
  · intro fuel p rv p₂ hE
    refine ⟨?_, ?_⟩
    · simp only [Parser.parse_return_statement, hE]
    · split <;> rfl
  · intro x n y k
    exact ⟨rfl, rfl, rfl, rfl, rfl, rfl, rfl, rfl, rfl⟩

theorem trailing_semicolon_optional_witness :
    (∃ (nm : Identifier) (v₁ : Expression),
      Parser.parse_let_statement 50 (Parser.new tokensLetSum) = some (some (nm, v₁),
        Parser.mk [] [] Token.semicolon Token.eof) ∧
      (Parser.mk [] ([] : List String) Token.semicolon Token.eof).errors =
        (Parser.mk [] [] (Token.int 2) Token.semicolon).errors) ∧
    (Parser.parse_return_statement 3 (Parser.new tokensReturnTrueBare) =
        some (some (Expression.primitive (Primitive.booleanLiteral true)),
          Parser.mk [] [] Token.trueT Token.eof) ∧
      (Parser.mk [] ([] : List String) Token.trueT Token.eof).errors =
        (Parser.mk [] [] Token.trueT Token.eof).errors) :=
  ⟨trailing_semicolon_optional.1 49 (Parser.new tokensLetSum)
      (Expression.infixExpr Token.plus
        (Expression.primitive (Primitive.integerLiteral 1))
        (Expression.primitive (Primitive.integerLiteral 2)))
      (Parser.mk [] [] (Token.int 2) Token.semicolon) rfl rfl rfl,
   trailing_semicolon_optional.2.1 2 (Parser.new tokensReturnTrueBare)
      (Expression.primitive (Primitive.booleanLiteral true))
      (Parser.mk [] [] Token.trueT Token.eof) rfl⟩

/-- C8: `peek_token_is` (and `current_token_is`) compare by kind only for
`Ident`/`Int` arguments — the check succeeds exactly when the peek
(resp. current) token is any `Ident`/`Int`, payloads ignored — while
every other token kind compares by full equality. -/
theorem token_comparison_by_kind :
    ∀ (p : Parser) (t : Token),
      ((∃ s, t = Token.ident s) →
        (p.peek_token_is t = true ↔ ∃ u, p.peek_token = Token.ident u)) ∧
      ((∃ m, t = Token.int m) →
        (p.peek_token_is t = true ↔ ∃ k, p.peek_token = Token.int k)) ∧
      ((∀ s, t ≠ Token.ident s) → (∀ m, t ≠ Token.int m) →
        (p.peek_token_is t = true ↔ p.peek_token = t)) ∧
      ((∃ s, t = Token.ident s) →
        (p.current_token_is t = true ↔ ∃ u, p.current_token = Token.ident u)) ∧
      ((∃ m, t = Token.int m) →
        (p.current_token_is t = true ↔ ∃ k, p.current_token = Token.int k)) ∧
      ((∀ s, t ≠ Token.ident s) → (∀ m, t ≠ Token.int m) →
        (p.current_token_is t = true ↔ p.current_token = t)) := by
  intro p t
  refine ⟨?_, ?_, ?_, ?_, ?_, ?_⟩
  · rintro ⟨s, rfl⟩; exact peek_token_is_ident_iff p s
  · rintro ⟨m, rfl⟩; exact peek_token_is_int_iff p m
  · exact peek_token_is_other_iff p t
  · rintro ⟨s, rfl⟩; exact current_token_is_ident_iff p s
  · rintro ⟨m, rfl⟩; exact current_token_is_int_iff p m
  · exact current_token_is_other_iff p t

theorem token_comparison_by_kind_witness :
    stateLetX5.peek_token_is (Token.ident "zzz") = true ∧
    (stateLetX5.peek_token_is Token.assign = true ↔
      stateLetX5.peek_token = Token.assign) :=
  ⟨((token_comparison_by_kind stateLetX5 (Token.ident "zzz")).1 ⟨"zzz", rfl⟩).mpr
     ⟨"x", rfl⟩,
   (token_comparison_by_kind stateLetX5 Token.assign).2.2.1
     (fun s => by nofun) (fun m => by nofun)⟩

/-- C9: `push_error` appends its message to the error list iff the
message is non-empty; hence an expression statement whose expression
parse fails with the empty error message is discarded (`none`) while the
error list stays exactly what the expression parser left behind. -/
theorem push_error_skips_empty :
    (∀ (p : Parser) (s : String),
      (s ≠ "" → (p.push_error s).errors = p.errors ++ [s]) ∧
      (s = "" → p.push_error s = p)) ∧
    (∀ (fuel : Nat) (p p₁ : Parser),
      Expression.parse fuel lowestPrecedence p = some (Except.error "", p₁) →
      ∃ q : Parser, Parser.parse_expression_statement (fuel + 1) p = some (none, q) ∧
        q.errors = p₁.errors) := by
  constructor
  · intro p s
    constructor
    · intro hne
      have hemp : ¬ s.isEmpty := fun hemp => hne ((String.isEmpty_iff s).mp hemp)
      simp [Parser.push_error, hemp]
    · rintro rfl
      rfl
  · intro fuel p p₁ hin
    refine ⟨if p₁.peek_token_is Token.semicolon then p₁.next_token else p₁, ?_, ?_⟩
    · simp only [Parser.parse_expression_statement, hin]
      rfl
    · split
      · rfl
      · rfl

theorem push_error_skips_empty_witness :
    ∃ q : Parser, Parser.parse_expression_statement 80 (Parser.new tokensGroupOpen) =
        some (none, q) ∧
      q.errors = ["Expected next token to be ), got Eof instead"] := by
  obtain ⟨q, hq, he⟩ := push_error_skips_empty.2 79 (Parser.new tokensGroupOpen)
    (Parser.mk [] ["Expected next token to be ), got Eof instead"]
      (Token.int 5) Token.eof) rfl
  exact ⟨q, hq, he⟩

/-- C10: `parse_program` terminates on every finite (well-formed) token
stream: with fuel linear in the stream length the loop completes
(`isSome`); each iteration advances the parser via `next_token`, which
strictly decreases the remaining-token measure while the current token
is not `Eof`; and the loop exits as soon as the current token is
`Eof`. -/
theorem parse_program_terminates :
    (∀ ts : List Token, Token.eof ∉ ts →
      (Parser.parse_program (fuelFor ts) (Parser.new ts)).isSome) ∧
    (∀ p : Parser, p.current_token ≠ Token.eof →
      (p.next_token).measure < p.measure) ∧
    (∀ (fuel : Nat) (p : Parser) (acc : List Statement),
      p.current_token = Token.eof →
      Parser.parse_program_loop (fuel + 1) p acc = some (acc, p)) := by
  refine ⟨fun ts h => parse_program_total ts h, fun p h => measure_next_lt h, ?_⟩
  intro fuel p acc hc
  simp [Parser.parse_program_loop, hc]

theorem parse_program_terminates_witness :
    (Parser.parse_program (fuelFor tokensLetEq5) (Parser.new tokensLetEq5)).isSome = true ∧
    (stateLetX5.next_token).measure < stateLetX5.measure ∧
    Parser.parse_program_loop 1 (Parser.mk [] [] Token.eof Token.eof) [] =
      some ([], Parser.mk [] [] Token.eof Token.eof) :=
  ⟨parse_program_terminates.1 tokensLetEq5 (by decide),
   parse_program_terminates.2.1 stateLetX5 (by decide),
   parse_program_terminates.2.2 0 (Parser.mk [] [] Token.eof Token.eof) [] rfl⟩
